import Mathlib

/-!
# random_sysbench_select: a verification development

A shallow embedding of `main.go` (the load generator for the `sbtest` schema) and theorems
about its report calculator, value cache, reservoir sampler and query builders.

Conventions of the embedding.

* Go `int` and `time.Duration` values are integers (`ℤ`).  The counters of a run are bounded
  by the number of results and never come near `2 ^ 63`, so no wrap-around is modelled.
* Go `float64` values are modelled exactly: a finite value is the rational it denotes and
  every operation rounds its exact result to the nearest binary64 value, ties to even
  (`rn64`).  Signed zeros are not distinguished.
* A Go panic and a Go `error` result are the two constructors of `Fault`; functions that can
  fail return `Except Fault _`.
* The random source `*rand.Rand` is replaced by explicit draws: `r.IntN n` receives a raw
  natural number and reduces it into `[0, n)`, `r.Perm n` receives the drawn permutation,
  and every test `r.Float64() < 0.1` receives its Boolean outcome.
* The database, the clock and the CSV reader are inputs: `db` maps a query to its outcome
  (an error text or the measured microseconds), a CSV stream is a list of read results.
* A Go slice shares its backing array.  The row returned by the cache lookup is the cached
  row itself, so the embedding returns it with its position and the worker stores the row
  written by `generateWhereClauseRandom` back at that position.
* The worker pool and the aggregator are run sequentially, one job after the other.
-/

namespace RandomSysbenchSelect

/-! ## binary64 arithmetic -/

/-- Nearest integer to a rational, a tie going to the even neighbour. -/
def roundHalfEven (r : ℚ) : ℤ :=
  let f := ⌊r⌋
  if r - f < 1 / 2 then f
  else if 1 / 2 < r - f then f + 1
  else if f % 2 = 0 then f else f + 1

/-- Round a rational to binary64 precision: 53 significant bits in the binade of `q`, the
exponent clamped below at the subnormal range.  Overflow is handled by `F64.ofRat`. -/
def rn64 (q : ℚ) : ℚ :=
  if q = 0 then 0
  else
    let e := max (Int.log 2 |q|) (-1022)
    (roundHalfEven (q / (2 : ℚ) ^ (e - 52)) : ℚ) * (2 : ℚ) ^ (e - 52)

/-- A `float64` value: a finite rational, an infinity with its sign, or NaN. -/
inductive F64 where
  | fin (q : ℚ)
  | inf (neg : Bool)
  | nan
  deriving DecidableEq, Repr

namespace F64

/-- The binary64 value nearest to a rational; magnitudes from `2 ^ 1024` on overflow. -/
def ofRat (q : ℚ) : F64 :=
  let r := rn64 q
  if (2 : ℚ) ^ (1024 : ℕ) ≤ |r| then inf (decide (r < 0)) else fin r

/-- The conversion `float64(i)` of an integer. -/
def ofInt (i : ℤ) : F64 := ofRat i

/-- Product `a * b` of two `float64` values. -/
def mul : F64 → F64 → F64
  | fin a, fin b => ofRat (a * b)
  | fin a, inf s => if a = 0 then nan else inf (xor s (decide (a < 0)))
  | inf s, fin b => if b = 0 then nan else inf (xor s (decide (b < 0)))
  | inf s, inf t => inf (xor s t)
  | _, _ => nan

/-- Quotient `a / b` of two `float64` values; dividing by zero is not a panic in Go. -/
def div : F64 → F64 → F64
  | fin a, fin b =>
    if b = 0 then (if a = 0 then nan else inf (decide (a < 0))) else ofRat (a / b)
  | fin _, inf _ => fin 0
  | inf s, fin b => inf (xor s (decide (b < 0)))
  | _, _ => nan

/-- Sum `a + b` of two `float64` values. -/
def add : F64 → F64 → F64
  | fin a, fin b => ofRat (a + b)
  | fin _, inf s => inf s
  | inf s, fin _ => inf s
  | inf s, inf t => if s = t then inf s else nan
  | _, _ => nan

/-- Difference `a - b` of two `float64` values. -/
def sub : F64 → F64 → F64
  | fin a, fin b => ofRat (a - b)
  | fin _, inf s => inf (!s)
  | inf s, fin _ => inf s
  | inf s, inf t => if s = t then nan else inf s
  | _, _ => nan

/-- The conversion `int(f)`: truncation toward zero.  For NaN and the infinities Go leaves
the result to the implementation; the amd64 value is used. -/
def toInt : F64 → ℤ
  | fin q => if 0 ≤ q then ⌊q⌋ else ⌈q⌉
  | _ => -(2 : ℤ) ^ (63 : ℕ)

/-- The order `a <= b` of `float64` values; NaN compares false with everything. -/
def le : F64 → F64 → Prop
  | fin a, fin b => a ≤ b
  | fin _, inf s => s = false
  | inf s, fin _ => s = true
  | inf s, inf t => s = true ∨ t = false
  | _, _ => False

end F64

/-! ## Faults -/

/-- The two ways a Go function fails: a run-time panic, or a returned `error`. -/
inductive Fault where
  | panic (msg : String)
  | error (msg : String)
  deriving DecidableEq, Repr

/-- The element `xs[i]` of a slice, panicking when `i` is out of range. -/
def index {α : Type} (xs : List α) (i : ℤ) : Except Fault α :=
  if 0 ≤ i then
    match xs.get? i.toNat with
    | some x => .ok x
    | none => .error (.panic "index out of range")
  else .error (.panic "index out of range")

/-- The draw `r.IntN(n)`: panics unless `0 < n`, else reduces the raw draw into `[0, n)`. -/
def intN (raw : ℕ) (n : ℕ) : Except Fault ℕ :=
  if n = 0 then .error (.panic "invalid argument to IntN") else .ok (raw % n)

/-! ## Data model -/

/-- The columns of the table `sbtest`. -/
def columns : List String := ["id", "k", "c", "pad"]

/-- A CSV record, `[]string`. -/
abbrev Row := List String

/-- The struct `Job`. -/
structure Job where
  ID : ℤ
  DbName : String
  TableName : String
  Fields : List String
  deriving DecidableEq, Repr

/-- The struct `Result`; `Elapse` counts microseconds, `Err` is `none` for a nil error. -/
structure Result where
  JobID : ℤ
  Elapse : ℤ := 0
  OK : Bool := false
  Err : Option String := none
  deriving DecidableEq, Repr

/-- The struct `Report`; the two instants are nanosecond clock readings.  The field
`CustomData` is never written by the program and is left out. -/
structure Report where
  JobStartAt : ℤ := 0
  JobEndAt : ℤ := 0
  TotalQueries : ℤ := 0
  TotalSuccessCount : ℤ := 0
  TotalFailureCount : ℤ := 0
  SuccessRate : F64 := .fin 0
  FailureRate : F64 := .fin 0
  QPS : F64 := .fin 0
  QueryLatencyP99 : F64 := .fin 0
  QueryLatencyP95 : F64 := .fin 0
  QueryLatencyP80 : F64 := .fin 0
  QueryLatencyP50 : F64 := .fin 0
  totalQueryDurations : List ℤ := []
  deriving DecidableEq, Repr

/-- The global `csvCache`, a map from table name to its rows. -/
abbrev Cache := String → Option (List Row)

/-! ## Report calculator -/

/-- The method `Report.AppendQueryDuration`. -/
def Report.AppendQueryDuration (rep : Report) (queryDuration : ℤ) : Report :=
  { rep with totalQueryDurations := rep.totalQueryDurations ++ [queryDuration] }

/-- The function `p99`: `int(0.99 * float64(idx))`. -/
def p99 (idx : ℤ) : ℤ := F64.toInt (F64.mul (F64.ofRat (99 / 100)) (F64.ofInt idx))

/-- The function `p95`: `int(0.95 * float64(idx))`. -/
def p95 (idx : ℤ) : ℤ := F64.toInt (F64.mul (F64.ofRat (95 / 100)) (F64.ofInt idx))

/-- The function `p80`: `int(0.80 * float64(idx))`. -/
def p80 (idx : ℤ) : ℤ := F64.toInt (F64.mul (F64.ofRat (80 / 100)) (F64.ofInt idx))

/-- The function `p50`: `int(0.50 * float64(idx))`. -/
def p50 (idx : ℤ) : ℤ := F64.toInt (F64.mul (F64.ofRat (50 / 100)) (F64.ofInt idx))

/-- The call `sort.Slice(xs, func(i, j) { return xs[i] > xs[j] })`: the samples in
descending order. -/
def sortDesc (xs : List ℤ) : List ℤ := List.insertionSort (fun a b => b ≤ a) xs

/-- The method `Report.calculateQueryDurationPercentile`. -/
def Report.calculateQueryDurationPercentile (rep : Report) : Except Fault Report := do
  let sorted := sortDesc rep.totalQueryDurations
  let rep := { rep with totalQueryDurations := sorted }
  let idxNum : ℤ := sorted.length
  let v99 ← index sorted (p99 idxNum)
  let rep := { rep with QueryLatencyP99 := F64.ofInt v99 }
  let v95 ← index sorted (p95 idxNum)
  let rep := { rep with QueryLatencyP95 := F64.ofInt v95 }
  let v80 ← index sorted (p80 idxNum)
  let rep := { rep with QueryLatencyP80 := F64.ofInt v80 }
  let v50 ← index sorted (p50 idxNum)
  pure { rep with QueryLatencyP50 := F64.ofInt v50 }

/-- The method `Duration.Seconds` of the standard library, on a nanosecond count. -/
def seconds (d : ℤ) : F64 :=
  F64.add (F64.ofInt (Int.tdiv d 1000000000))
    (F64.div (F64.ofInt (Int.tmod d 1000000000)) (F64.ofRat 1000000000))

/-- The method `Report.finalizeReport`. -/
def Report.finalizeReport (rep : Report) : Except Fault Report := do
  let rep ← rep.calculateQueryDurationPercentile
  let rep := { rep with TotalQueries := rep.TotalSuccessCount + rep.TotalFailureCount }
  let rep := { rep with
    SuccessRate := F64.div (F64.ofInt rep.TotalSuccessCount) (F64.ofInt rep.TotalQueries) }
  let rep := { rep with FailureRate := F64.sub (F64.ofRat 1) rep.SuccessRate }
  pure { rep with
    QPS := F64.div (F64.ofInt rep.TotalQueries) (seconds (rep.JobEndAt - rep.JobStartAt)) }

/-! ## Random choices of the job generator -/

/-- The function `getTableFieldsRandom`; `wild` is the outcome of `r.Float64() < 0.1`,
`numDraw` the raw draw of `r.IntN(len(columns))` and `perm` the result of
`r.Perm(len(columns))`. -/
def getTableFieldsRandom (wild : Bool) (numDraw : ℕ) (perm : List ℕ) :
    Except Fault (List String) := do
  if wild then
    pure ["*"]
  else
    let fieldNum := (← intN numDraw columns.length) + 1
    if perm.length < fieldNum then
      throw (.panic "slice bounds out of range")
    else
      (perm.take fieldNum).mapM (fun (i : ℕ) => index columns (i : ℤ))

/-! ## Value cache and sampling -/

/-- The loop of `loadCSVDataRandom` from row number `counter` on: `data` is the candidate
held so far, `draw i` the raw draw of `r.IntN(i)` and the list the remaining results of
`reader.Read()`, its end standing for `io.EOF`. -/
def loadLoop (draw : ℕ → ℕ) (csvFile : String) :
    ℕ → Row → List (Except String Row) → Except Fault Row
  | _, data, [] => .ok data
  | _, _, .error e :: _ =>
    .error (.error ("failed to read CSV file " ++ csvFile ++ ": " ++ e))
  | counter, data, .ok row :: rest =>
    match intN (draw counter) counter with
    | .error f => .error f
    | .ok d => loadLoop draw csvFile (counter + 1) (if d = 0 then row else data) rest

/-- The function `loadCSVDataRandom`; `found` is the outcome of `pickUpCSVFile` (the file
name or an error text) and `opened` the outcome of `os.Open` (the stream of read results or
an error text). -/
def loadCSVDataRandom (draw : ℕ → ℕ) (found : Except String String)
    (opened : Except String (List (Except String Row))) : Except Fault Row :=
  match found with
  | .error e => .error (.error ("failed to find CSV file: " ++ e))
  | .ok csvFile =>
    match opened with
    | .error e => .error (.error ("failed to open CSV file " ++ csvFile ++ ": " ++ e))
    | .ok stream => loadLoop draw csvFile 1 [] stream

/-- The function `unloadCSVDataRandomFromCache`; `raw` is the raw draw of
`r.IntN(len(rows))`.  The returned row is the cached one, so its position comes with it. -/
def unloadCSVDataRandomFromCache (csvCache : Cache) (raw : ℕ) (tableName : String) :
    Except Fault (ℕ × Row) :=
  match csvCache tableName with
  | some rows =>
    match intN raw rows.length with
    | .error f => .error f
    | .ok i =>
      match rows.get? i with
      | some row => .ok (i, row)
      | none => .error (.panic "index out of range")
  | none =>
    .error (.error ("CSV data for the table " ++ tableName ++ " is not found in cache"))

/-- Store `row` at position `i` of the rows cached for `tableName`: the effect on the cache
of writing through the slice returned by the lookup. -/
def Cache.setRow (csvCache : Cache) (tableName : String) (i : ℕ) (row : Row) : Cache :=
  fun t => if t = tableName then (csvCache t).map (fun rows => rows.set i row) else csvCache t

/-! ## Query builder -/

/-- One iteration of the loop of `generateWhereClauseRandom` for the loop variable `idx`;
`sentinel` is the outcome of `r.Float64() < 0.1`. -/
def whereStep (sentinel : ℕ → Bool) (st : Row × List String) (idx : ℕ) :
    Except Fault (Row × List String) :=
  let data := st.1
  let clause := st.2
  if idx < data.length then
    let data := if sentinel idx then data.set idx "-1" else data
    match columns.get? idx with
    | none => .error (.panic "index out of range")
    | some col =>
      let builder := col ++ " = "
      let builder :=
        if idx = 0 ∨ idx = 1 then builder ++ data.getD idx ""
        else if idx = 2 ∨ idx = 3 then builder ++ "'" ++ data.getD idx "" ++ "'"
        else builder
      .ok (data, clause ++ [builder])
  else .error (.panic "index out of range")

/-- The function `generateWhereClauseRandom`; `nDraw` is the raw draw of
`r.IntN(len(data))`, `perm` the result of `r.Perm(len(data))` and `sentinel idx` the
outcome of `r.Float64() < 0.1` in the iteration with loop variable `idx`.  The loop
`for idx := range perm[:n]` runs over the positions `0, ..., n - 1` of the truncated
permutation.  Returns the clause and the row as the loop leaves it. -/
def generateWhereClauseRandom (nDraw : ℕ) (perm : List ℕ) (sentinel : ℕ → Bool)
    (data : Row) : Except Fault (String × Row) := do
  let n := (← intN nDraw data.length) + 1
  if perm.length < n then
    throw (.panic "slice bounds out of range")
  else
    let st ← (List.range (perm.take n).length).foldlM (whereStep sentinel) (data, [])
    pure ("WHERE " ++ " AND ".intercalate st.2, st.1)

/-- The function `buildRandomSelectQuery`; `orderBy` is the outcome of
`r.Float64() < 0.1`. -/
def buildRandomSelectQuery (orderBy : Bool) (dbName tableName : String)
    (fields : List String) (whereClause : String) : Except Fault String := do
  let builder := "SELECT " ++ ", ".intercalate fields ++ " FROM " ++ dbName ++ "."
    ++ tableName ++ " " ++ whereClause
  if orderBy then
    let first ← index fields 0
    let builder := builder ++ " ORDER BY " ++ (if first = "*" then "id" else first)
    pure (builder ++ ";")
  else
    pure (builder ++ ";")

/-! ## Worker and aggregator -/

/-- The random draws a worker makes for one job. -/
structure JobDraws where
  rowDraw : ℕ
  nDraw : ℕ
  perm : List ℕ
  sentinel : ℕ → Bool
  orderBy : Bool

/-- The body of the worker loop of `run` for one job: the cache after the job and the
result sent on the result channel, or the panic that ends the process. -/
def runJob (db : String → Except String ℤ) (csvCache : Cache) (dr : JobDraws) (job : Job) :
    Except Fault (Cache × Result) :=
  match unloadCSVDataRandomFromCache csvCache dr.rowDraw job.TableName with
  | .error (.panic msg) => .error (.panic msg)
  | .error (.error msg) => .ok (csvCache, { JobID := job.ID, Err := some msg })
  | .ok (i, data) => do
    let (whereClause, data) ← generateWhereClauseRandom dr.nDraw dr.perm dr.sentinel data
    let csvCache := csvCache.setRow job.TableName i data
    let selectQuery ←
      buildRandomSelectQuery dr.orderBy job.DbName job.TableName job.Fields whereClause
    match db selectQuery with
    | .ok elapsed => pure (csvCache, { JobID := job.ID, OK := true, Elapse := elapsed })
    | .error err => pure (csvCache, { JobID := job.ID, Err := some err })

/-- The worker loop of `run` over the jobs it dequeues, `draws k` being the draws made for
the `k`-th of them: the cache at the end and the results in the order they were sent. -/
def run (db : String → Except String ℤ) (draws : ℕ → JobDraws) :
    ℕ → Cache → List Job → Except Fault (Cache × List Result)
  | _, csvCache, [] => .ok (csvCache, [])
  | k, csvCache, job :: jobs => do
    let (csvCache, result) ← runJob db csvCache (draws k) job
    let (csvCache, results) ← run db draws (k + 1) csvCache jobs
    pure (csvCache, result :: results)

/-- The body of the aggregator loop of `main` for one result.  Its sampled debug log
changes no state and is left out. -/
def aggregate (report : Report) (res : Result) : Report :=
  if res.OK then
    ({ report with TotalSuccessCount := report.TotalSuccessCount + 1 }).AppendQueryDuration
      res.Elapse
  else
    { report with TotalFailureCount := report.TotalFailureCount + 1 }

/-- The part of `main` after the job loop: the workers drain the jobs, the aggregator drains
the results into a fresh report stamped with the two clock readings, and the report is
finalized by `PrintResult`. -/
def mainRun (db : String → Except String ℤ) (draws : ℕ → JobDraws) (csvCache : Cache)
    (startAt endAt : ℤ) (jobs : List Job) : Except Fault Report := do
  let (_, results) ← run db draws 0 csvCache jobs
  let report := results.foldl aggregate { JobStartAt := startAt, JobEndAt := endAt }
  report.finalizeReport

/-! ## Draw sequences of the reservoir sampler -/

/-- All sequences `(d_1, ..., d_k)` of draws with `d_i` in `{0, ..., i - 1}`: the possible
outcomes of the calls `r.IntN(i)` that the loop of `loadCSVDataRandom` makes on a stream of
`k` rows. -/
def drawSeqs : ℕ → List (List ℕ)
  | 0 => [[]]
  | k + 1 => (drawSeqs k).flatMap (fun ds => (List.range (k + 1)).map (fun d => ds ++ [d]))

/-- The draw function of a draw sequence: row number `counter` receives `d_counter`. -/
def drawOf (ds : List ℕ) (counter : ℕ) : ℕ := ds.getD (counter - 1) 0

/-- The position of the candidate held after `k` rows under the draw function `draw`: the
last row whose draw reduced to zero.  It is used in proofs only, to name the row that the
loop of `loadCSVDataRandom` returns. -/
def heldPosition (draw : ℕ → ℕ) : ℕ → ℕ
  | 0 => 0
  | k + 1 => if draw (k + 1) % (k + 1) = 0 then k else heldPosition draw k

/-! ## Sample inputs -/

/-- A cache holding one row for the table `sbtest1`. -/
def sampleCache : Cache := fun t => if t = "sbtest1" then some [["1", "2", "c", "p"]] else none

/-- A cache holding the table `sbtest1` with no row, as loaded from an empty CSV file. -/
def emptyTableCache : Cache := fun t => if t = "sbtest1" then some [] else none

/-- A job on the table `sbtest1`. -/
def sampleJob : Job :=
  { ID := 1, DbName := "sbtest001", TableName := "sbtest1", Fields := ["*"] }

/-- Draws of a worker: the first row, one conjunct, the permutation `[3, 2, 1, 0]`, the
sentinel test succeeding, no `ORDER BY`. -/
def sampleDraws : JobDraws :=
  { rowDraw := 0, nDraw := 0, perm := [3, 2, 1, 0], sentinel := fun _ => true,
    orderBy := false }

/-! ## Rounding lemmas -/

theorem roundHalfEven_sub_le (r : ℚ) : |(roundHalfEven r : ℚ) - r| ≤ 1 / 2 := by
  have h1 : (⌊r⌋ : ℚ) ≤ r := Int.floor_le r
  have h2 : r < (⌊r⌋ : ℚ) + 1 := Int.lt_floor_add_one r
  unfold roundHalfEven
  simp only
  split_ifs with ha hb hc
  · rw [abs_le]; constructor <;> linarith
  · push_cast; rw [abs_le]; constructor <;> linarith
  · rw [abs_le]; constructor <;> linarith
  · push_cast; rw [abs_le]; constructor <;> linarith

theorem roundHalfEven_eq_of_close (r : ℚ) (g : ℤ) (h : |(g : ℚ) - r| < 1 / 2) :
    roundHalfEven r = g := by
  have h1 := roundHalfEven_sub_le r
  rw [abs_le] at h1
  rw [abs_lt] at h
  have h3 : ((roundHalfEven r - g : ℤ) : ℚ) < 1 := by push_cast; linarith
  have h4 : (-1 : ℚ) < ((roundHalfEven r - g : ℤ) : ℚ) := by push_cast; linarith
  have h5 : roundHalfEven r - g < 1 := by exact_mod_cast h3
  have h6 : -1 < roundHalfEven r - g := by exact_mod_cast h4
  omega

theorem roundHalfEven_intCast (z : ℤ) : roundHalfEven (z : ℚ) = z :=
  roundHalfEven_eq_of_close _ _ (by simp)

theorem rn64_of_log (q : ℚ) (hq : q ≠ 0) (e : ℤ) (he : Int.log 2 |q| = e) (hmin : -1022 ≤ e) :
    rn64 q = (roundHalfEven (q / (2 : ℚ) ^ (e - 52)) : ℚ) * (2 : ℚ) ^ (e - 52) := by
  unfold rn64
  rw [if_neg hq, he, max_eq_left hmin]

/-- Bracketing of a positive rational by its binade, with the unit in the last place
`u = 2 ^ (e - 52)`: `u * 2 ^ 52 ≤ q < u * 2 ^ 53`. -/
theorem binade_bounds (q : ℚ) (hq : 0 < q) :
    (2 : ℚ) ^ (Int.log 2 q - 52) * 2 ^ (52 : ℕ) ≤ q ∧
      q < (2 : ℚ) ^ (Int.log 2 q - 52) * 2 ^ (53 : ℕ) := by
  have h1 : (2 : ℚ) ^ (Int.log 2 q) ≤ q := by
    have := Int.zpow_log_le_self (show 1 < 2 by norm_num) hq
    exact_mod_cast this
  have h2 : q < (2 : ℚ) ^ (Int.log 2 q + 1) := by
    have := Int.lt_zpow_succ_log_self (show 1 < 2 by norm_num) q
    exact_mod_cast this
  have e1 : (2 : ℚ) ^ (Int.log 2 q - 52) * 2 ^ (52 : ℕ) = (2 : ℚ) ^ (Int.log 2 q) := by
    rw [← zpow_natCast, ← zpow_add₀ (by norm_num)]; congr 1; push_cast; ring
  have e2 : (2 : ℚ) ^ (Int.log 2 q - 52) * 2 ^ (53 : ℕ) = (2 : ℚ) ^ (Int.log 2 q + 1) := by
    rw [← zpow_natCast, ← zpow_add₀ (by norm_num)]; congr 1; push_cast; ring
  rw [e1, e2]; exact ⟨h1, h2⟩

theorem rn64_abs_sub_le (q : ℚ) (hq : 0 < q) (hmin : -1022 ≤ Int.log 2 q) :
    |rn64 q - q| ≤ (2 : ℚ) ^ (Int.log 2 q - 52) / 2 := by
  have hu : (0 : ℚ) < (2 : ℚ) ^ (Int.log 2 q - 52) := by positivity
  rw [rn64_of_log q hq.ne' (Int.log 2 q) (by rw [abs_of_pos hq]) hmin]
  have h := roundHalfEven_sub_le (q / (2 : ℚ) ^ (Int.log 2 q - 52))
  have e : (roundHalfEven (q / (2 : ℚ) ^ (Int.log 2 q - 52)) : ℚ) * (2 : ℚ) ^ (Int.log 2 q - 52) - q
      = ((roundHalfEven (q / (2 : ℚ) ^ (Int.log 2 q - 52)) : ℚ) - q / (2 : ℚ) ^ (Int.log 2 q - 52))
        * (2 : ℚ) ^ (Int.log 2 q - 52) := by
    field_simp
  rw [e, abs_mul, abs_of_pos hu]
  calc _ ≤ 1 / 2 * (2 : ℚ) ^ (Int.log 2 q - 52) := mul_le_mul_of_nonneg_right h hu.le
    _ = _ := by ring

theorem rn64_eq_of_close (q : ℚ) (hq : 0 < q) (hmin : -1022 ≤ Int.log 2 q) (k : ℤ)
    (h : |(k : ℚ) * (2 : ℚ) ^ (Int.log 2 q - 52) - q| < (2 : ℚ) ^ (Int.log 2 q - 52) / 2) :
    rn64 q = (k : ℚ) * (2 : ℚ) ^ (Int.log 2 q - 52) := by
  have hu : (0 : ℚ) < (2 : ℚ) ^ (Int.log 2 q - 52) := by positivity
  rw [rn64_of_log q hq.ne' (Int.log 2 q) (by rw [abs_of_pos hq]) hmin]
  congr 2
  apply roundHalfEven_eq_of_close
  have e : (k : ℚ) - q / (2 : ℚ) ^ (Int.log 2 q - 52)
      = ((k : ℚ) * (2 : ℚ) ^ (Int.log 2 q - 52) - q) / (2 : ℚ) ^ (Int.log 2 q - 52) := by
    field_simp
  rw [e, abs_div, abs_of_pos hu, div_lt_iff₀ hu]
  linarith


/-- Truncating a rounded product `c * n` of a binary64 constant `c = M / 2 ^ 53` close to the
fraction `N / D` gives the exact integer quotient `N * n / D` for every count below `2 ^ 46`. -/
theorem floor_rn64_scale (M N D δ n : ℤ) (hM : 2 ^ 52 ≤ M) (hM' : M < 2 ^ 53) (hD : 0 < D)
    (hDM : D * M = N * 2 ^ 53 + δ) (hδ : (|δ| + D) * 2 ^ 46 ≤ 2 ^ 53)
    (hδ2 : |δ| * 2 ^ 54 ≤ D * M) (hn : 0 < n) (hn' : n < 2 ^ 46) :
    ⌊rn64 ((M : ℚ) / 2 ^ 53 * n)⌋ = N * n / D := by
  have hMq : ((2 : ℚ) ^ 52 ≤ (M : ℚ)) := by exact_mod_cast hM
  have hMq' : ((M : ℚ) < (2 : ℚ) ^ 53) := by exact_mod_cast hM'
  have hnq : (0 : ℚ) < (n : ℚ) := by exact_mod_cast hn
  have hn1 : (1 : ℚ) ≤ (n : ℚ) := by exact_mod_cast hn
  have hnq' : (n : ℚ) < (2 : ℚ) ^ 46 := by exact_mod_cast hn'
  have hDq : (0 : ℚ) < (D : ℚ) := by exact_mod_cast hD
  have hDMq : (D : ℚ) * M = N * 2 ^ 53 + δ := by exact_mod_cast hDM
  have hδq : (|(δ : ℚ)| + D) * 2 ^ 46 ≤ 2 ^ 53 := by
    have : (((|δ| + D) * 2 ^ 46 : ℤ) : ℚ) ≤ ((2 ^ 53 : ℤ) : ℚ) := by exact_mod_cast hδ
    push_cast at this; exact this
  have hδ2q : |(δ : ℚ)| * 2 ^ 54 ≤ D * M := by
    have : (((|δ| * 2 ^ 54 : ℤ)) : ℚ) ≤ ((D * M : ℤ) : ℚ) := by exact_mod_cast hδ2
    push_cast at this; exact this
  set x : ℚ := (M : ℚ) / 2 ^ 53 * n with hxdef
  have hx : 0 < x := by positivity
  have hxn : x < n := by
    rw [hxdef]
    have : (M : ℚ) / 2 ^ 53 < 1 := by rw [div_lt_one (by positivity)]; exact hMq'
    nlinarith
  have hxhalf : (1 : ℚ) / 2 ≤ x := by
    rw [hxdef]
    have : (1 : ℚ) / 2 ≤ (M : ℚ) / 2 ^ 53 := by
      rw [le_div_iff₀ (by positivity)]; linarith
    nlinarith
  have hlo : -1 ≤ Int.log 2 x := by
    rw [← Int.zpow_le_iff_le_log (by norm_num) hx]
    norm_num; linarith
  have hhi : Int.log 2 x < 46 := by
    rw [← Int.lt_zpow_iff_log_lt (by norm_num) hx]
    norm_num; linarith
  have hmin : -1022 ≤ Int.log 2 x := by omega
  obtain ⟨hb1, hb2⟩ := binade_bounds x hx
  have herr := rn64_abs_sub_le x hx hmin
  set u : ℚ := (2 : ℚ) ^ (Int.log 2 x - 52) with hudef
  have hu : 0 < u := by positivity
  set a : ℚ := (n : ℚ) / 2 ^ 53 with hadef
  have ha : 0 < a := by positivity
  have hua : u / 2 < a := by
    rw [hadef, lt_div_iff₀ (by positivity)]; linarith
  have hDx : (D : ℚ) * x = N * n + δ * a := by
    rw [hxdef, hadef]
    have : (D : ℚ) * (M / 2 ^ 53 * n) = (D * M) * n / 2 ^ 53 := by ring
    rw [this, hDMq]; field_simp; ring
  have hδa : (|(δ : ℚ)| + D) * a < 1 := by
    rw [hadef]
    have h0 : (0 : ℚ) ≤ |(δ : ℚ)| + D := by positivity
    have : (|(δ : ℚ)| + D) * (n / 2 ^ 53) = (|(δ : ℚ)| + D) * n / 2 ^ 53 := by ring
    rw [this, div_lt_one (by positivity)]
    have hpos : (0 : ℚ) < |(δ : ℚ)| + D := by positivity
    calc (|(δ : ℚ)| + D) * n < (|(δ : ℚ)| + D) * 2 ^ 46 := by
          exact mul_lt_mul_of_pos_left hnq' hpos
      _ ≤ 2 ^ 53 := hδq
  have hδle : δ * a ≤ |(δ : ℚ)| * a := mul_le_mul_of_nonneg_right (le_abs_self _) ha.le
  have hδge : -(|(δ : ℚ)| * a) ≤ δ * a := by
    have := mul_le_mul_of_nonneg_right (neg_abs_le (δ : ℚ)) ha.le
    linarith
  have hqt := Int.ediv_add_emod (N * n) D
  have ht0 := Int.emod_nonneg (N * n) hD.ne'
  have htD := Int.emod_lt_of_pos (N * n) hD
  have hqtq : (D : ℚ) * ((N * n / D : ℤ) : ℚ) + ((N * n % D : ℤ) : ℚ) = N * n := by
    exact_mod_cast hqt
  set q : ℤ := N * n / D with hqdef
  set t : ℤ := N * n % D with htdef
  rw [abs_le] at herr
  rw [Int.floor_eq_iff]
  by_cases ht : t = 0
  · -- the exact product is within half an ulp of the integer `q`
    have hexp : (0 : ℤ) ≤ 52 - Int.log 2 x := by omega
    have hku : ((q * 2 ^ (52 - Int.log 2 x).toNat : ℤ) : ℚ) * u = q := by
      push_cast
      rw [hudef, mul_assoc, ← zpow_natCast, ← zpow_add₀ (by norm_num)]
      rw [Int.toNat_of_nonneg hexp]
      norm_num
    have hclose : |((q * 2 ^ (52 - Int.log 2 x).toNat : ℤ) : ℚ) * u - x| < u / 2 := by
      rw [hku]
      have hqx : (D : ℚ) * ((q : ℚ) - x) = -(δ * a) := by
        rw [mul_sub, hDx]; rw [ht] at hqtq; push_cast at hqtq; linarith
      have hxu : x / 2 ^ 54 < u / 2 := by
        rw [div_lt_iff₀ (by positivity)]; linarith
      have hkey : |(δ : ℚ)| * a ≤ (D : ℚ) * (x / 2 ^ 54) := by
        have e1 : (D : ℚ) * (x / 2 ^ 54) = (D * M) * n / 2 ^ 107 := by rw [hxdef]; ring
        have e2 : |(δ : ℚ)| * a = (|(δ : ℚ)| * 2 ^ 54) * n / 2 ^ 107 := by rw [hadef]; ring
        rw [e1, e2]
        apply div_le_div_of_nonneg_right _ (by positivity)
        exact mul_le_mul_of_nonneg_right hδ2q hnq.le
      have habs : (D : ℚ) * |(q : ℚ) - x| = |(δ : ℚ)| * a := by
        have h0 : |(D : ℚ) * ((q : ℚ) - x)| = |(δ : ℚ)| * a := by
          rw [hqx, abs_neg, abs_mul, abs_of_pos ha]
        rw [abs_mul, abs_of_pos hDq] at h0
        exact h0
      have : (D : ℚ) * |(q : ℚ) - x| < D * (u / 2) := by
        rw [habs]; calc _ ≤ _ := hkey
          _ < _ := mul_lt_mul_of_pos_left hxu hDq
      exact lt_of_mul_lt_mul_left this hDq.le
    have hr := rn64_eq_of_close x hx hmin _ hclose
    rw [hr, hku]
    constructor
    · exact le_refl _
    · linarith
  · have ht1 : (1 : ℚ) ≤ (t : ℚ) := by
      have : 1 ≤ t := by omega
      exact_mod_cast this
    have htD' : (t : ℚ) ≤ D - 1 := by
      have : t ≤ D - 1 := by omega
      exact_mod_cast this
    have hDa : (D : ℚ) * (u / 2) < D * a := mul_lt_mul_of_pos_left hua hDq
    have hδa' : |(δ : ℚ)| * a + D * a < 1 := by linarith [add_mul |(δ : ℚ)| (D : ℚ) a]
    have hsub : (D : ℚ) * (rn64 x - x) = D * rn64 x - D * x := by ring
    constructor
    · have : (D : ℚ) * q < D * rn64 x := by
        have h1 : (D : ℚ) * (-(u / 2)) ≤ D * (rn64 x - x) :=
          mul_le_mul_of_nonneg_left herr.1 hDq.le
        have h2 : (D : ℚ) * (-(u / 2)) = -(D * (u / 2)) := by ring
        linarith
      exact le_of_lt (lt_of_mul_lt_mul_left this hDq.le)
    · have : (D : ℚ) * rn64 x < D * (q + 1) := by
        have h1 : (D : ℚ) * (rn64 x - x) ≤ D * (u / 2) :=
          mul_le_mul_of_nonneg_left herr.2 hDq.le
        have h2 : (D : ℚ) * ((q : ℚ) + 1) = D * q + D := by ring
        linarith
      exact lt_of_mul_lt_mul_left this hDq.le



/-- Rounding at a known binade: if `k` units in the last place are within half a unit of `q`,
the rounded value is `k` units. -/
theorem rn64_eq_of_bounds (q : ℚ) (e k : ℤ) (hmin : -1022 ≤ e) (h1 : (2 : ℚ) ^ e ≤ q)
    (h2 : q < (2 : ℚ) ^ (e + 1))
    (h : |(k : ℚ) * (2 : ℚ) ^ (e - 52) - q| < (2 : ℚ) ^ (e - 52) / 2) :
    rn64 q = (k : ℚ) * (2 : ℚ) ^ (e - 52) := by
  have hq : 0 < q := lt_of_lt_of_le (by positivity) h1
  have he : Int.log 2 q = e := by
    have ha : e ≤ Int.log 2 q := by
      rw [← Int.zpow_le_iff_le_log (by norm_num) hq]; exact_mod_cast h1
    have hb : Int.log 2 q < e + 1 := by
      rw [← Int.lt_zpow_iff_log_lt (by norm_num) hq]; exact_mod_cast h2
    omega
  have := rn64_eq_of_close q hq (by omega) k (by rw [he]; exact h)
  rw [he] at this
  exact this

theorem rn64_zero : rn64 0 = 0 := by simp [rn64]

theorem rn64_c99 : rn64 (99 / 100) = 8917127262193582 / 2 ^ 53 := by
  have := rn64_eq_of_bounds (99 / 100) (-1) 8917127262193582 (by norm_num) (by norm_num)
    (by norm_num) (by norm_num [abs_lt])
  rw [this]; norm_num

theorem rn64_c95 : rn64 (95 / 100) = 8556839292003942 / 2 ^ 53 := by
  have := rn64_eq_of_bounds (95 / 100) (-1) 8556839292003942 (by norm_num) (by norm_num)
    (by norm_num) (by norm_num [abs_lt])
  rw [this]; norm_num

theorem rn64_c80 : rn64 (80 / 100) = 7205759403792794 / 2 ^ 53 := by
  have := rn64_eq_of_bounds (80 / 100) (-1) 7205759403792794 (by norm_num) (by norm_num)
    (by norm_num) (by norm_num [abs_lt])
  rw [this]; norm_num

theorem rn64_c50 : rn64 (50 / 100) = 4503599627370496 / 2 ^ 53 := by
  have := rn64_eq_of_bounds (50 / 100) (-1) 4503599627370496 (by norm_num) (by norm_num)
    (by norm_num) (by norm_num [abs_lt])
  rw [this]; norm_num


theorem rn64_intCast_of_pos (z : ℤ) (h0 : 0 < z) (h : z < 2 ^ 53) : rn64 (z : ℚ) = z := by
  have hz : (0 : ℚ) < (z : ℚ) := by exact_mod_cast h0
  have hz1 : (1 : ℚ) ≤ (z : ℚ) := by exact_mod_cast h0
  have hz2 : (z : ℚ) < (2 : ℚ) ^ 53 := by exact_mod_cast h
  have hlo : 0 ≤ Int.log 2 (z : ℚ) := by
    rw [← Int.zpow_le_iff_le_log (by norm_num) hz]; norm_num; exact hz1
  have hhi : Int.log 2 (z : ℚ) < 53 := by
    rw [← Int.lt_zpow_iff_log_lt (by norm_num) hz]; norm_num; exact hz2
  have hexp : (0 : ℤ) ≤ 52 - Int.log 2 (z : ℚ) := by omega
  have hku : ((z * 2 ^ (52 - Int.log 2 (z : ℚ)).toNat : ℤ) : ℚ)
      * (2 : ℚ) ^ (Int.log 2 (z : ℚ) - 52) = z := by
    push_cast
    rw [mul_assoc, ← zpow_natCast, ← zpow_add₀ (by norm_num), Int.toNat_of_nonneg hexp]
    norm_num
  have hu : (0 : ℚ) < (2 : ℚ) ^ (Int.log 2 (z : ℚ) - 52) := by positivity
  have := rn64_eq_of_close (z : ℚ) hz (by omega) _ (by rw [hku]; simpa using hu)
  rw [this, hku]

theorem ofRat_of_lt (q : ℚ) (h : |rn64 q| < (2 : ℚ) ^ (1024 : ℕ)) :
    F64.ofRat q = F64.fin (rn64 q) := by
  unfold F64.ofRat
  simp only
  rw [if_neg (not_le.mpr h)]

theorem ofInt_of_nonneg (z : ℤ) (h0 : 0 ≤ z) (h : z < 2 ^ 53) : F64.ofInt z = F64.fin z := by
  unfold F64.ofInt
  have hr : rn64 (z : ℚ) = z := by
    rcases h0.eq_or_lt with h0 | h0
    · rw [← h0]; simpa using rn64_zero
    · exact rn64_intCast_of_pos z h0 h
  have hz0 : (0 : ℚ) ≤ (z : ℚ) := by exact_mod_cast h0
  have hz2 : (z : ℚ) < (2 : ℚ) ^ 53 := by exact_mod_cast h
  rw [ofRat_of_lt, hr]
  rw [hr, abs_of_nonneg hz0]
  calc (z : ℚ) < (2 : ℚ) ^ 53 := hz2
    _ < (2 : ℚ) ^ (1024 : ℕ) := by norm_num

/-- The index computation `int(c * float64(n))` for a constant `c` whose binary64 value is
`M / 2 ^ 53`, close to the fraction `N / D`: for counts below `2 ^ 46` it is the exact
integer quotient `N * n / D`. -/
theorem toInt_mul_const (c : ℚ) (M N D δ n : ℤ) (hc : rn64 c = (M : ℚ) / 2 ^ 53)
    (hM : 2 ^ 52 ≤ M) (hM' : M < 2 ^ 53) (hD : 0 < D) (hN : 0 ≤ N) (hND : N ≤ D)
    (hDM : D * M = N * 2 ^ 53 + δ) (hδ : (|δ| + D) * 2 ^ 46 ≤ 2 ^ 53)
    (hδ2 : |δ| * 2 ^ 54 ≤ D * M) (hn : 0 ≤ n) (hn' : n < 2 ^ 46) :
    F64.toInt (F64.mul (F64.ofRat c) (F64.ofInt n)) = N * n / D := by
  have hMq : (0 : ℚ) ≤ (M : ℚ) := by
    have : (0 : ℤ) ≤ M := by linarith [show (0 : ℤ) ≤ 2 ^ 52 by norm_num]
    exact_mod_cast this
  have hMq' : ((M : ℚ) < (2 : ℚ) ^ 53) := by exact_mod_cast hM'
  have hcfin : F64.ofRat c = F64.fin ((M : ℚ) / 2 ^ 53) := by
    rw [ofRat_of_lt, hc]
    rw [hc, abs_of_nonneg (by positivity)]
    calc (M : ℚ) / 2 ^ 53 < 1 := by rw [div_lt_one (by positivity)]; exact hMq'
      _ < (2 : ℚ) ^ (1024 : ℕ) := by norm_num
  rw [hcfin, ofInt_of_nonneg n hn (by linarith [show (2 : ℤ) ^ 46 < 2 ^ 53 by norm_num])]
  simp only [F64.mul]
  rcases hn.eq_or_lt with h0 | h0
  · rw [← h0]
    have hz : F64.ofRat ((M : ℚ) / 2 ^ 53 * ((0 : ℤ) : ℚ)) = F64.fin 0 := by
      rw [ofRat_of_lt] <;> simp [rn64_zero]
    rw [hz]
    simp [F64.toInt]
  · have hfl := floor_rn64_scale M N D δ n hM hM' hD hDM hδ hδ2 h0 hn'
    have hq0 : 0 ≤ N * n / D := Int.ediv_nonneg (mul_nonneg hN hn) hD.le
    have hqn : N * n / D ≤ n := by
      apply Int.ediv_le_of_le_mul hD
      nlinarith
    rw [Int.floor_eq_iff] at hfl
    have hr0 : (0 : ℚ) ≤ rn64 ((M : ℚ) / 2 ^ 53 * n) := by
      have : (0 : ℚ) ≤ ((N * n / D : ℤ) : ℚ) := by exact_mod_cast hq0
      linarith [hfl.1]
    have hrn : rn64 ((M : ℚ) / 2 ^ 53 * n) < (2 : ℚ) ^ (1024 : ℕ) := by
      have h1 : ((N * n / D : ℤ) : ℚ) ≤ (n : ℚ) := by exact_mod_cast hqn
      have h2 : (n : ℚ) < (2 : ℚ) ^ 46 := by exact_mod_cast hn'
      have h3 : (2 : ℚ) ^ 46 + 1 < (2 : ℚ) ^ (1024 : ℕ) := by norm_num
      linarith [hfl.2]
    rw [ofRat_of_lt _ (by rw [abs_of_nonneg hr0]; exact hrn)]
    simp only [F64.toInt, if_pos hr0]
    rw [Int.floor_eq_iff]
    exact hfl

theorem p99_eq (n : ℤ) (hn : 0 ≤ n) (hn' : n < 2 ^ 46) : p99 n = 99 * n / 100 :=
  toInt_mul_const (99 / 100) 8917127262193582 99 100 (-8) n rn64_c99 (by norm_num)
    (by norm_num) (by norm_num) (by norm_num) (by norm_num) (by norm_num) (by norm_num [abs_of_neg])
    (by norm_num [abs_of_neg]) hn hn'

theorem p95_eq (n : ℤ) (hn : 0 ≤ n) (hn' : n < 2 ^ 46) : p95 n = 19 * n / 20 :=
  toInt_mul_const (95 / 100) 8556839292003942 19 20 (-8) n rn64_c95 (by norm_num)
    (by norm_num) (by norm_num) (by norm_num) (by norm_num) (by norm_num) (by norm_num [abs_of_neg])
    (by norm_num [abs_of_neg]) hn hn'

theorem p80_eq (n : ℤ) (hn : 0 ≤ n) (hn' : n < 2 ^ 46) : p80 n = 4 * n / 5 :=
  toInt_mul_const (80 / 100) 7205759403792794 4 5 2 n rn64_c80 (by norm_num)
    (by norm_num) (by norm_num) (by norm_num) (by norm_num) (by norm_num) (by norm_num)
    (by norm_num) hn hn'

theorem p50_eq (n : ℤ) (hn : 0 ≤ n) (hn' : n < 2 ^ 46) : p50 n = 1 * n / 2 :=
  toInt_mul_const (50 / 100) 4503599627370496 1 2 0 n rn64_c50 (by norm_num)
    (by norm_num) (by norm_num) (by norm_num) (by norm_num) (by norm_num) (by norm_num)
    (by norm_num) hn hn'


/-! ### Rounding is monotone -/

theorem roundHalfEven_mono {r s : ℚ} (h : r ≤ s) : roundHalfEven r ≤ roundHalfEven s := by
  by_contra hlt
  push_neg at hlt
  have hr := roundHalfEven_sub_le r
  have hs := roundHalfEven_sub_le s
  rw [abs_le] at hr hs
  have h1 : roundHalfEven s + 1 ≤ roundHalfEven r := hlt
  have h1q : (roundHalfEven s : ℚ) + 1 ≤ roundHalfEven r := by exact_mod_cast h1
  have hrs : r = s := by linarith
  rw [hrs] at hlt
  exact lt_irrefl _ hlt

/-- The unit in the last place used by `rn64` for a non-zero rational. -/
theorem rn64_unit (q : ℚ) (hq : q ≠ 0) :
    rn64 q = (roundHalfEven (q / (2 : ℚ) ^ (max (Int.log 2 |q|) (-1022) - 52)) : ℚ)
      * (2 : ℚ) ^ (max (Int.log 2 |q|) (-1022) - 52) := by
  unfold rn64
  rw [if_neg hq]

theorem abs_lt_unit (q : ℚ) :
    |q| < (2 : ℚ) ^ (max (Int.log 2 |q|) (-1022) - 52) * 2 ^ (53 : ℕ) := by
  have h2 : |q| < (2 : ℚ) ^ (Int.log 2 |q| + 1) := by
    have := Int.lt_zpow_succ_log_self (show 1 < 2 by norm_num) |q|
    exact_mod_cast this
  have e2 : (2 : ℚ) ^ (max (Int.log 2 |q|) (-1022) - 52) * 2 ^ (53 : ℕ)
      = (2 : ℚ) ^ (max (Int.log 2 |q|) (-1022) + 1) := by
    rw [← zpow_natCast, ← zpow_add₀ (by norm_num)]; congr 1; push_cast; ring
  rw [e2]
  refine lt_of_lt_of_le h2 (zpow_le_zpow_right₀ (by norm_num) ?_)
  have := le_max_left (Int.log 2 |q|) (-1022)
  omega

theorem unit_le_abs (q : ℚ) (hq : q ≠ 0) (h : -1022 ≤ Int.log 2 |q|) :
    (2 : ℚ) ^ (max (Int.log 2 |q|) (-1022) - 52) * 2 ^ (52 : ℕ) ≤ |q| := by
  rw [max_eq_left h]
  exact (binade_bounds |q| (abs_pos.mpr hq)).1

theorem rn64_nonneg {q : ℚ} (hq : 0 ≤ q) : 0 ≤ rn64 q := by
  rcases hq.eq_or_lt with h | h
  · rw [← h, rn64_zero]
  · rw [rn64_unit q h.ne']
    have h0 : (0 : ℚ) ≤ q / (2 : ℚ) ^ (max (Int.log 2 |q|) (-1022) - 52) := by positivity
    have := roundHalfEven_mono h0
    rw [show (0 : ℚ) = ((0 : ℤ) : ℚ) by simp, roundHalfEven_intCast] at this
    have h1 : (0 : ℚ) ≤ (roundHalfEven (q / (2 : ℚ) ^ (max (Int.log 2 |q|) (-1022) - 52)) : ℚ) := by
      exact_mod_cast this
    positivity

theorem rn64_nonpos {q : ℚ} (hq : q ≤ 0) : rn64 q ≤ 0 := by
  rcases hq.eq_or_lt with h | h
  · rw [h, rn64_zero]
  · rw [rn64_unit q h.ne]
    have hu : (0 : ℚ) < (2 : ℚ) ^ (max (Int.log 2 |q|) (-1022) - 52) := by positivity
    have h0 : q / (2 : ℚ) ^ (max (Int.log 2 |q|) (-1022) - 52) ≤ 0 :=
      div_nonpos_of_nonpos_of_nonneg hq hu.le
    have := roundHalfEven_mono h0
    rw [show (0 : ℚ) = ((0 : ℤ) : ℚ) by simp, roundHalfEven_intCast] at this
    have h1 : (roundHalfEven (q / (2 : ℚ) ^ (max (Int.log 2 |q|) (-1022) - 52)) : ℚ) ≤ 0 := by
      exact_mod_cast this
    exact mul_nonpos_of_nonpos_of_nonneg h1 hu.le

/-- A rounded value stays inside the closed binade of its argument. -/
theorem abs_rn64_le (q : ℚ) (hq : q ≠ 0) :
    |rn64 q| ≤ (2 : ℚ) ^ (max (Int.log 2 |q|) (-1022) - 52) * 2 ^ (53 : ℕ) := by
  have hu : (0 : ℚ) < (2 : ℚ) ^ (max (Int.log 2 |q|) (-1022) - 52) := by positivity
  have hlt := abs_lt_unit q
  rw [abs_lt] at hlt
  have hup : q / (2 : ℚ) ^ (max (Int.log 2 |q|) (-1022) - 52) ≤ (((2 : ℤ) ^ (53 : ℕ) : ℤ) : ℚ) := by
    rw [div_le_iff₀ hu]; push_cast; linarith
  have hdn : (((-(2 : ℤ) ^ (53 : ℕ)) : ℤ) : ℚ) ≤ q / (2 : ℚ) ^ (max (Int.log 2 |q|) (-1022) - 52) := by
    rw [le_div_iff₀ hu]; push_cast; linarith
  have h1 := roundHalfEven_mono hup
  have h2 := roundHalfEven_mono hdn
  rw [roundHalfEven_intCast] at h1 h2
  have h1q : (roundHalfEven (q / (2 : ℚ) ^ (max (Int.log 2 |q|) (-1022) - 52)) : ℚ)
      ≤ (2 : ℚ) ^ (53 : ℕ) := by exact_mod_cast h1
  have h2q : -(2 : ℚ) ^ (53 : ℕ)
      ≤ (roundHalfEven (q / (2 : ℚ) ^ (max (Int.log 2 |q|) (-1022) - 52)) : ℚ) := by
    exact_mod_cast h2
  rw [rn64_unit q hq, abs_mul, abs_of_pos hu, mul_comm]
  exact mul_le_mul_of_nonneg_left (abs_le.mpr ⟨h2q, h1q⟩) hu.le

/-- A rounded value of a normal argument does not leave its binade downwards. -/
theorem le_abs_rn64 (q : ℚ) (hq : q ≠ 0) (h : -1022 ≤ Int.log 2 |q|) :
    (2 : ℚ) ^ (max (Int.log 2 |q|) (-1022) - 52) * 2 ^ (52 : ℕ) ≤ |rn64 q| := by
  have hu : (0 : ℚ) < (2 : ℚ) ^ (max (Int.log 2 |q|) (-1022) - 52) := by positivity
  have hle := unit_le_abs q hq h
  rw [rn64_unit q hq, abs_mul, abs_of_pos hu, mul_comm]
  apply mul_le_mul_of_nonneg_right _ hu.le
  rcases lt_or_gt_of_ne hq with hneg | hpos
  · have habs := abs_of_neg hneg
    have hup : q / (2 : ℚ) ^ (max (Int.log 2 |q|) (-1022) - 52)
        ≤ (((-(2 : ℤ) ^ (52 : ℕ)) : ℤ) : ℚ) := by
      rw [div_le_iff₀ hu]; push_cast; linarith
    have h1 := roundHalfEven_mono hup
    rw [roundHalfEven_intCast] at h1
    have h1q : (roundHalfEven (q / (2 : ℚ) ^ (max (Int.log 2 |q|) (-1022) - 52)) : ℚ)
        ≤ -(2 : ℚ) ^ (52 : ℕ) := by exact_mod_cast h1
    rw [le_abs]; right; linarith
  · have habs := abs_of_pos hpos
    have hdn : ((((2 : ℤ) ^ (52 : ℕ)) : ℤ) : ℚ)
        ≤ q / (2 : ℚ) ^ (max (Int.log 2 |q|) (-1022) - 52) := by
      rw [le_div_iff₀ hu]; push_cast; linarith
    have h1 := roundHalfEven_mono hdn
    rw [roundHalfEven_intCast] at h1
    have h1q : (2 : ℚ) ^ (52 : ℕ)
        ≤ (roundHalfEven (q / (2 : ℚ) ^ (max (Int.log 2 |q|) (-1022) - 52)) : ℚ) := by
      exact_mod_cast h1
    rw [le_abs]; left; exact h1q

/-- Rounding is monotone on magnitudes of one sign. -/
theorem abs_rn64_mono {x y : ℚ} (hx : x ≠ 0) (hy : y ≠ 0) (h : |x| ≤ |y|) :
    |rn64 x| ≤ |rn64 y| ∨ max (Int.log 2 |x|) (-1022) = max (Int.log 2 |y|) (-1022) := by
  have hlog : Int.log 2 |x| ≤ Int.log 2 |y| := Int.log_mono_right (abs_pos.mpr hx) h
  by_cases heq : max (Int.log 2 |x|) (-1022) = max (Int.log 2 |y|) (-1022)
  · right; exact heq
  · left
    have hlt : max (Int.log 2 |x|) (-1022) < max (Int.log 2 |y|) (-1022) :=
      lt_of_le_of_ne (max_le_max hlog le_rfl) heq
    have hyn : -1022 ≤ Int.log 2 |y| := by
      by_contra hc
      push_neg at hc
      rw [max_eq_right hc.le] at hlt
      have := le_max_right (Int.log 2 |x|) (-1022)
      omega
    have h1 := abs_rn64_le x hx
    have h2 := le_abs_rn64 y hy hyn
    have e1 : (2 : ℚ) ^ (max (Int.log 2 |x|) (-1022) - 52) * 2 ^ (53 : ℕ)
        = (2 : ℚ) ^ (max (Int.log 2 |x|) (-1022) + 1) := by
      rw [← zpow_natCast, ← zpow_add₀ (by norm_num)]; congr 1; push_cast; ring
    have e2 : (2 : ℚ) ^ (max (Int.log 2 |y|) (-1022) - 52) * 2 ^ (52 : ℕ)
        = (2 : ℚ) ^ (max (Int.log 2 |y|) (-1022)) := by
      rw [← zpow_natCast, ← zpow_add₀ (by norm_num)]; congr 1; push_cast; ring
    rw [e1] at h1
    rw [e2] at h2
    have h3 : (2 : ℚ) ^ (max (Int.log 2 |x|) (-1022) + 1)
        ≤ (2 : ℚ) ^ (max (Int.log 2 |y|) (-1022)) :=
      zpow_le_zpow_right₀ (by norm_num) (by omega)
    linarith

theorem rn64_mono {x y : ℚ} (h : x ≤ y) : rn64 x ≤ rn64 y := by
  rcases le_or_lt x 0 with hx0 | hx0
  · rcases le_or_lt 0 y with hy0 | hy0
    · exact le_trans (rn64_nonpos hx0) (rn64_nonneg hy0)
    · -- both negative
      have hx : x ≠ 0 := (lt_of_le_of_lt h hy0).ne
      have hy : y ≠ 0 := hy0.ne
      have habs : |y| ≤ |x| := by
        rw [abs_of_neg hy0, abs_of_neg (lt_of_le_of_lt h hy0)]; linarith
      rcases abs_rn64_mono hy hx habs with hm | he
      · rw [abs_of_nonpos (rn64_nonpos hy0.le),
          abs_of_nonpos (rn64_nonpos (lt_of_le_of_lt h hy0).le)] at hm
        linarith
      · rw [rn64_unit x hx, rn64_unit y hy, he]
        have hu : (0 : ℚ) < (2 : ℚ) ^ (max (Int.log 2 |x|) (-1022) - 52) := by positivity
        apply mul_le_mul_of_nonneg_right _ hu.le
        have := roundHalfEven_mono (div_le_div_of_nonneg_right h hu.le)
        exact_mod_cast this
  · have hy0 : 0 < y := lt_of_lt_of_le hx0 h
    have habs : |x| ≤ |y| := by rw [abs_of_pos hx0, abs_of_pos hy0]; exact h
    rcases abs_rn64_mono hx0.ne' hy0.ne' habs with hm | he
    · rw [abs_of_nonneg (rn64_nonneg hx0.le), abs_of_nonneg (rn64_nonneg hy0.le)] at hm
      exact hm
    · rw [rn64_unit x hx0.ne', rn64_unit y hy0.ne', he]
      have hu : (0 : ℚ) < (2 : ℚ) ^ (max (Int.log 2 |y|) (-1022) - 52) := by positivity
      apply mul_le_mul_of_nonneg_right _ hu.le
      have := roundHalfEven_mono (div_le_div_of_nonneg_right h hu.le)
      exact_mod_cast this

theorem ofRat_mono {x y : ℚ} (h : x ≤ y) : F64.le (F64.ofRat x) (F64.ofRat y) := by
  have hm := rn64_mono h
  unfold F64.ofRat
  simp only
  by_cases h1 : (2 : ℚ) ^ (1024 : ℕ) ≤ |rn64 x| <;> by_cases h2 : (2 : ℚ) ^ (1024 : ℕ) ≤ |rn64 y|
  · rw [if_pos h1, if_pos h2]
    simp only [F64.le, decide_eq_true_eq, decide_eq_false_iff_not, not_lt]
    by_contra hc
    push_neg at hc
    have hp : (0 : ℚ) < (2 : ℚ) ^ (1024 : ℕ) := by positivity
    rw [abs_of_nonneg hc.1] at h1
    linarith [hc.2]
  · rw [if_pos h1, if_neg h2]
    simp only [F64.le, decide_eq_true_eq]
    by_contra hc
    push_neg at hc
    have hp : (0 : ℚ) < (2 : ℚ) ^ (1024 : ℕ) := by positivity
    rw [abs_of_nonneg hc] at h1
    push_neg at h2
    have := le_abs_self (rn64 y)
    linarith
  · rw [if_neg h1, if_pos h2]
    simp only [F64.le, decide_eq_false_iff_not, not_lt]
    by_contra hc
    push_neg at hc
    rw [abs_of_neg hc] at h2
    push_neg at h1
    have := neg_le_abs (rn64 x)
    linarith
  · rw [if_neg h1, if_neg h2]
    exact hm

theorem ofInt_mono {a b : ℤ} (h : a ≤ b) : F64.le (F64.ofInt a) (F64.ofInt b) :=
  ofRat_mono (by exact_mod_cast h)


/-! ## Report calculator -/

theorem index_natCast {α : Type} (xs : List α) (i : ℕ) (h : i < xs.length) :
    index xs (i : ℤ) = .ok (xs.get ⟨i, h⟩) := by
  unfold index
  simp [List.getElem?_eq_getElem h]

theorem index_of_not_lt {α : Type} (xs : List α) (i : ℤ) (h : (xs.length : ℤ) ≤ i) :
    index xs i = .error (.panic "index out of range") := by
  unfold index
  split_ifs with h0
  · have : xs.length ≤ i.toNat := by omega
    simp [List.getElem?_eq_none this]
  · rfl

theorem length_sortDesc (xs : List ℤ) : (sortDesc xs).length = xs.length :=
  List.length_insertionSort _ xs

theorem perm_sortDesc (xs : List ℤ) : (sortDesc xs).Perm xs :=
  List.perm_insertionSort _ xs

theorem sorted_sortDesc (xs : List ℤ) : (sortDesc xs).Sorted (fun a b => b ≤ a) :=
  List.sorted_insertionSort _ xs

/-- The four indices of a non-empty sample set of feasible size, as natural numbers. -/
theorem percentile_indices (n : ℕ) (hn : n < 2 ^ 46) :
    p99 (n : ℤ) = ((99 * n / 100 : ℕ) : ℤ) ∧ p95 (n : ℤ) = ((95 * n / 100 : ℕ) : ℤ) ∧
      p80 (n : ℤ) = ((80 * n / 100 : ℕ) : ℤ) ∧ p50 (n : ℤ) = ((50 * n / 100 : ℕ) : ℤ) := by
  have h0 : (0 : ℤ) ≤ (n : ℤ) := Int.natCast_nonneg n
  have h1 : (n : ℤ) < 2 ^ 46 := by exact_mod_cast hn
  rw [p99_eq _ h0 h1, p95_eq _ h0 h1, p80_eq _ h0 h1, p50_eq _ h0 h1]
  push_cast
  refine ⟨rfl, ?_, ?_, ?_⟩ <;> omega

theorem calculateQueryDurationPercentile_ok (rep : Report)
    (h0 : 0 < rep.totalQueryDurations.length) (hn : rep.totalQueryDurations.length < 2 ^ 46) :
    rep.calculateQueryDurationPercentile = .ok
      { rep with
        totalQueryDurations := sortDesc rep.totalQueryDurations
        QueryLatencyP99 := F64.ofInt ((sortDesc rep.totalQueryDurations).getD
          (99 * rep.totalQueryDurations.length / 100) 0)
        QueryLatencyP95 := F64.ofInt ((sortDesc rep.totalQueryDurations).getD
          (95 * rep.totalQueryDurations.length / 100) 0)
        QueryLatencyP80 := F64.ofInt ((sortDesc rep.totalQueryDurations).getD
          (80 * rep.totalQueryDurations.length / 100) 0)
        QueryLatencyP50 := F64.ofInt ((sortDesc rep.totalQueryDurations).getD
          (50 * rep.totalQueryDurations.length / 100) 0) } := by
  obtain ⟨e99, e95, e80, e50⟩ := percentile_indices _ hn
  have l99 : 99 * rep.totalQueryDurations.length / 100 < (sortDesc rep.totalQueryDurations).length := by
    rw [length_sortDesc]; omega
  have l95 : 95 * rep.totalQueryDurations.length / 100 < (sortDesc rep.totalQueryDurations).length := by
    rw [length_sortDesc]; omega
  have l80 : 80 * rep.totalQueryDurations.length / 100 < (sortDesc rep.totalQueryDurations).length := by
    rw [length_sortDesc]; omega
  have l50 : 50 * rep.totalQueryDurations.length / 100 < (sortDesc rep.totalQueryDurations).length := by
    rw [length_sortDesc]; omega
  unfold Report.calculateQueryDurationPercentile
  simp only [length_sortDesc, e99, e95, e80, e50, index_natCast _ _ l99, index_natCast _ _ l95,
    index_natCast _ _ l80, index_natCast _ _ l50]
  simp [bind, Except.bind, pure, Except.pure, List.getElem?_eq_getElem l99,
    List.getElem?_eq_getElem l95, List.getElem?_eq_getElem l80, List.getElem?_eq_getElem l50]


theorem sortDesc_getD_anti (xs : List ℤ) (i j : ℕ) (hij : i ≤ j) (hj : j < xs.length) :
    (sortDesc xs).getD j 0 ≤ (sortDesc xs).getD i 0 := by
  have hj' : j < (sortDesc xs).length := by rw [length_sortDesc]; exact hj
  have hi' : i < (sortDesc xs).length := lt_of_le_of_lt hij hj'
  rw [List.getD_eq_getElem _ _ hj', List.getD_eq_getElem _ _ hi']
  rcases hij.eq_or_lt with h | h
  · subst h; exact le_refl _
  · have hs := sorted_sortDesc xs
    have := List.pairwise_iff_getElem.mp hs i j hi' hj' h
    exact this

theorem floor_percent (N n : ℕ) : ⌊((N : ℚ) / 100) * (n : ℚ)⌋.toNat = N * n / 100 := by
  have e : ((N : ℚ) / 100) * (n : ℚ) = (((N * n : ℕ) : ℤ) : ℚ) / ((100 : ℕ) : ℚ) := by
    push_cast; ring
  rw [e, Rat.floor_intCast_div_natCast]
  have : (((N * n : ℕ) : ℤ) / ((100 : ℕ) : ℤ)) = ((N * n / 100 : ℕ) : ℤ) := by push_cast; rfl
  rw [this, Int.toNat_natCast]

/-- C1: for every non-empty collection of latency samples (of a size that fits the address
space, below `2 ^ 46`) `calculateQueryDurationPercentile` succeeds, leaves the samples sorted
in descending order (a sorted permutation of the input), and reports as P99, P95, P80 and P50
the `float64` conversion of the sample at index `floor(f * sampleCount)` of the sorted
samples, for `f` = 0.99, 0.95, 0.80 and 0.50. -/
theorem calculateQueryDurationPercentile_reports (rep : Report)
    (hne : rep.totalQueryDurations ≠ []) (hlen : rep.totalQueryDurations.length < 2 ^ 46) :
    ∃ rep' : Report, rep.calculateQueryDurationPercentile = .ok rep' ∧
      rep'.totalQueryDurations = sortDesc rep.totalQueryDurations ∧
      (sortDesc rep.totalQueryDurations).Sorted (fun a b => b ≤ a) ∧
      (sortDesc rep.totalQueryDurations).Perm rep.totalQueryDurations ∧
      (∃ v, (sortDesc rep.totalQueryDurations).get?
          ⌊(99 / 100 : ℚ) * (rep.totalQueryDurations.length : ℚ)⌋.toNat = some v ∧
        rep'.QueryLatencyP99 = F64.ofInt v) ∧
      (∃ v, (sortDesc rep.totalQueryDurations).get?
          ⌊(95 / 100 : ℚ) * (rep.totalQueryDurations.length : ℚ)⌋.toNat = some v ∧
        rep'.QueryLatencyP95 = F64.ofInt v) ∧
      (∃ v, (sortDesc rep.totalQueryDurations).get?
          ⌊(80 / 100 : ℚ) * (rep.totalQueryDurations.length : ℚ)⌋.toNat = some v ∧
        rep'.QueryLatencyP80 = F64.ofInt v) ∧
      (∃ v, (sortDesc rep.totalQueryDurations).get?
          ⌊(50 / 100 : ℚ) * (rep.totalQueryDurations.length : ℚ)⌋.toNat = some v ∧
        rep'.QueryLatencyP50 = F64.ofInt v) := by
  have h0 : 0 < rep.totalQueryDurations.length := List.length_pos.mpr hne
  have f99 := floor_percent 99 rep.totalQueryDurations.length
  have f95 := floor_percent 95 rep.totalQueryDurations.length
  have f80 := floor_percent 80 rep.totalQueryDurations.length
  have f50 := floor_percent 50 rep.totalQueryDurations.length
  push_cast at f99 f95 f80 f50
  have l99 : 99 * rep.totalQueryDurations.length / 100 < (sortDesc rep.totalQueryDurations).length := by
    rw [length_sortDesc]; omega
  have l95 : 95 * rep.totalQueryDurations.length / 100 < (sortDesc rep.totalQueryDurations).length := by
    rw [length_sortDesc]; omega
  have l80 : 80 * rep.totalQueryDurations.length / 100 < (sortDesc rep.totalQueryDurations).length := by
    rw [length_sortDesc]; omega
  have l50 : 50 * rep.totalQueryDurations.length / 100 < (sortDesc rep.totalQueryDurations).length := by
    rw [length_sortDesc]; omega
  refine ⟨_, calculateQueryDurationPercentile_ok rep h0 hlen, rfl, sorted_sortDesc _,
    perm_sortDesc _, ⟨_, ?_, rfl⟩, ⟨_, ?_, rfl⟩, ⟨_, ?_, rfl⟩, ⟨_, ?_, rfl⟩⟩
  · rw [f99]; simp [List.getD_eq_getElem _ _ l99, List.getElem?_eq_getElem l99]
  · rw [f95]; simp [List.getD_eq_getElem _ _ l95, List.getElem?_eq_getElem l95]
  · rw [f80]; simp [List.getD_eq_getElem _ _ l80, List.getElem?_eq_getElem l80]
  · rw [f50]; simp [List.getD_eq_getElem _ _ l50, List.getElem?_eq_getElem l50]


theorem calculateQueryDurationPercentile_reports_witness :
    ∃ rep' : Report,
      Report.calculateQueryDurationPercentile
        { totalQueryDurations := [10, 20, 30, 40, 50, 60, 70, 80, 90, 100] } = .ok rep' ∧
      rep'.totalQueryDurations = [100, 90, 80, 70, 60, 50, 40, 30, 20, 10] ∧
      rep'.QueryLatencyP50 = F64.fin 50 ∧ rep'.QueryLatencyP99 = F64.fin 10 := by
  obtain ⟨rep', hok, hs, _, _, ⟨v99, h99, e99⟩, _, _, ⟨v50, h50, e50⟩⟩ :=
    calculateQueryDurationPercentile_reports
      { totalQueryDurations := [10, 20, 30, 40, 50, 60, 70, 80, 90, 100] }
      (by decide) (by norm_num)
  have hsort : sortDesc [10, 20, 30, 40, 50, 60, 70, 80, 90, 100]
      = [100, 90, 80, 70, 60, 50, 40, 30, 20, 10] := by decide
  have f99 : ⌊(99 / 100 : ℚ) * ((10 : ℕ) : ℚ)⌋.toNat = 9 := by
    exact floor_percent 99 10
  have f50 : ⌊(50 / 100 : ℚ) * ((10 : ℕ) : ℚ)⌋.toNat = 5 := by
    exact floor_percent 50 10
  change (sortDesc [10, 20, 30, 40, 50, 60, 70, 80, 90, 100]).get?
    ⌊(99 / 100 : ℚ) * ((10 : ℕ) : ℚ)⌋.toNat = some v99 at h99
  change (sortDesc [10, 20, 30, 40, 50, 60, 70, 80, 90, 100]).get?
    ⌊(50 / 100 : ℚ) * ((10 : ℕ) : ℚ)⌋.toNat = some v50 at h50
  change rep'.totalQueryDurations = sortDesc [10, 20, 30, 40, 50, 60, 70, 80, 90, 100] at hs
  rw [hsort, f99] at h99
  rw [hsort, f50] at h50
  rw [hsort] at hs
  simp at h99 h50
  subst h99 h50
  refine ⟨rep', hok, hs, ?_, ?_⟩
  · rw [e50]; exact ofInt_of_nonneg 50 (by norm_num) (by norm_num)
  · rw [e99]; exact ofInt_of_nonneg 10 (by norm_num) (by norm_num)

/-- C10: for every non-empty collection of latency samples (of a size below `2 ^ 46`) the
four indices computed by `p99`, `p95`, `p80` and `p50` are within bounds, and the reported
values satisfy `QueryLatencyP99 <= QueryLatencyP95 <= QueryLatencyP80 <= QueryLatencyP50`. -/
theorem percentiles_in_bounds_and_ordered (rep : Report)
    (hne : rep.totalQueryDurations ≠ []) (hlen : rep.totalQueryDurations.length < 2 ^ 46) :
    (0 ≤ p99 rep.totalQueryDurations.length ∧
      p99 rep.totalQueryDurations.length < rep.totalQueryDurations.length) ∧
    (0 ≤ p95 rep.totalQueryDurations.length ∧
      p95 rep.totalQueryDurations.length < rep.totalQueryDurations.length) ∧
    (0 ≤ p80 rep.totalQueryDurations.length ∧
      p80 rep.totalQueryDurations.length < rep.totalQueryDurations.length) ∧
    (0 ≤ p50 rep.totalQueryDurations.length ∧
      p50 rep.totalQueryDurations.length < rep.totalQueryDurations.length) ∧
    ∃ rep' : Report, rep.calculateQueryDurationPercentile = .ok rep' ∧
      F64.le rep'.QueryLatencyP99 rep'.QueryLatencyP95 ∧
      F64.le rep'.QueryLatencyP95 rep'.QueryLatencyP80 ∧
      F64.le rep'.QueryLatencyP80 rep'.QueryLatencyP50 := by
  have h0 : 0 < rep.totalQueryDurations.length := List.length_pos.mpr hne
  obtain ⟨e99, e95, e80, e50⟩ := percentile_indices _ hlen
  rw [e99, e95, e80, e50]
  refine ⟨⟨by positivity, ?_⟩, ⟨by positivity, ?_⟩, ⟨by positivity, ?_⟩, ⟨by positivity, ?_⟩,
    _, calculateQueryDurationPercentile_ok rep h0 hlen, ?_, ?_, ?_⟩
  · exact_mod_cast (show 99 * rep.totalQueryDurations.length / 100
      < rep.totalQueryDurations.length by omega)
  · exact_mod_cast (show 95 * rep.totalQueryDurations.length / 100
      < rep.totalQueryDurations.length by omega)
  · exact_mod_cast (show 80 * rep.totalQueryDurations.length / 100
      < rep.totalQueryDurations.length by omega)
  · exact_mod_cast (show 50 * rep.totalQueryDurations.length / 100
      < rep.totalQueryDurations.length by omega)
  · exact ofInt_mono (sortDesc_getD_anti _ _ _ (by omega) (by omega))
  · exact ofInt_mono (sortDesc_getD_anti _ _ _ (by omega) (by omega))
  · exact ofInt_mono (sortDesc_getD_anti _ _ _ (by omega) (by omega))

theorem percentiles_in_bounds_and_ordered_witness :
    (0 ≤ p99 (3 : ℕ) ∧ p99 (3 : ℕ) < (3 : ℕ)) ∧
    ∃ rep' : Report,
      Report.calculateQueryDurationPercentile { totalQueryDurations := [7, 300, 40] } = .ok rep' ∧
      F64.le rep'.QueryLatencyP99 rep'.QueryLatencyP95 ∧
      F64.le rep'.QueryLatencyP95 rep'.QueryLatencyP80 ∧
      F64.le rep'.QueryLatencyP80 rep'.QueryLatencyP50 := by
  have h := percentiles_in_bounds_and_ordered { totalQueryDurations := [7, 300, 40] }
    (by decide) (by norm_num)
  exact ⟨h.1, h.2.2.2.2⟩

theorem calculateQueryDurationPercentile_nil (rep : Report) (h : rep.totalQueryDurations = []) :
    rep.calculateQueryDurationPercentile = .error (.panic "index out of range") := by
  have h99 : p99 0 = 0 := by
    have := p99_eq 0 le_rfl (by norm_num)
    simpa using this
  unfold Report.calculateQueryDurationPercentile
  rw [h]
  have hs : sortDesc [] = [] := rfl
  simp only [hs, List.length_nil, Nat.cast_zero, h99]
  rfl

theorem finalizeReport_nil (rep : Report) (h : rep.totalQueryDurations = []) :
    rep.finalizeReport = .error (.panic "index out of range") := by
  unfold Report.finalizeReport
  rw [calculateQueryDurationPercentile_nil rep h]
  rfl

theorem finalizeReport_ok (rep : Report) (h0 : rep.totalQueryDurations ≠ [])
    (hn : rep.totalQueryDurations.length < 2 ^ 46) :
    ∃ rep' : Report, rep.finalizeReport = .ok rep' ∧
      rep'.TotalQueries = rep.TotalSuccessCount + rep.TotalFailureCount ∧
      rep'.TotalSuccessCount = rep.TotalSuccessCount ∧
      rep'.TotalFailureCount = rep.TotalFailureCount := by
  unfold Report.finalizeReport
  rw [calculateQueryDurationPercentile_ok rep (List.length_pos.mpr h0) hn]
  exact ⟨_, rfl, rfl, rfl, rfl⟩

/-- C2: a run in which every result is a failure leaves no latency sample, and
`finalizeReport` then panics on the index `p99(0) = 0` of the empty sample slice instead of
yielding a report with `TotalQueries = TotalFailureCount` and a failure rate of 100%. -/
theorem finalizeReport_all_failures_panics (failures startAt endAt : ℤ) :
    Report.finalizeReport
      { JobStartAt := startAt, JobEndAt := endAt, TotalSuccessCount := 0,
        TotalFailureCount := failures, totalQueryDurations := [] }
      = .error (.panic "index out of range") :=
  finalizeReport_nil _ rfl


/-! ## Worker and aggregator -/

theorem run_length (db : String → Except String ℤ) (draws : ℕ → JobDraws) (jobs : List Job) :
    ∀ (k : ℕ) (c c' : Cache) (rs : List Result),
      run db draws k c jobs = .ok (c', rs) → rs.length = jobs.length := by
  induction jobs with
  | nil =>
    intro k c c' rs h
    simp only [run, Except.ok.injEq, Prod.mk.injEq] at h
    simp [← h.2]
  | cons job jobs ih =>
    intro k c c' rs h
    simp only [run, bind, Except.bind] at h
    split at h
    · cases h
    · rename_i p hp
      split at h
      · cases h
      · rename_i q hq
        simp only [pure, Except.pure, Except.ok.injEq, Prod.mk.injEq] at h
        rw [← h.2, List.length_cons, List.length_cons, ih _ _ _ _ hq]

theorem aggregate_counts (res : Result) (rep : Report) :
    (aggregate rep res).TotalSuccessCount + (aggregate rep res).TotalFailureCount
      = rep.TotalSuccessCount + rep.TotalFailureCount + 1 := by
  unfold aggregate
  split_ifs
  · simp only [Report.AppendQueryDuration]; ring
  · simp only; ring

theorem foldl_aggregate_counts (rs : List Result) :
    ∀ rep : Report,
      (rs.foldl aggregate rep).TotalSuccessCount + (rs.foldl aggregate rep).TotalFailureCount
        = rep.TotalSuccessCount + rep.TotalFailureCount + rs.length := by
  induction rs with
  | nil => intro rep; simp
  | cons r rs ih =>
    intro rep
    rw [List.foldl_cons, ih, aggregate_counts, List.length_cons]
    push_cast; ring

theorem calculateQueryDurationPercentile_counts (rep rep' : Report)
    (h : rep.calculateQueryDurationPercentile = .ok rep') :
    rep'.TotalSuccessCount = rep.TotalSuccessCount ∧
      rep'.TotalFailureCount = rep.TotalFailureCount := by
  unfold Report.calculateQueryDurationPercentile at h
  simp only [bind, Except.bind, pure, Except.pure] at h
  repeat (split at h; · cases h)
  cases h
  exact ⟨rfl, rfl⟩

theorem finalizeReport_counts (rep rep' : Report) (h : rep.finalizeReport = .ok rep') :
    rep'.TotalQueries = rep.TotalSuccessCount + rep.TotalFailureCount ∧
      rep'.TotalSuccessCount = rep.TotalSuccessCount ∧
      rep'.TotalFailureCount = rep.TotalFailureCount := by
  unfold Report.finalizeReport at h
  simp only [bind, Except.bind, pure, Except.pure] at h
  split at h
  · cases h
  · rename_i r hr
    obtain ⟨h1, h2⟩ := calculateQueryDurationPercentile_counts rep r hr
    cases h
    exact ⟨by simp only [h1, h2], h1, h2⟩

/-- Whenever the report of a run is finalized, its counters add up to the number of jobs the
workers dequeued. -/
theorem mainRun_counts (db : String → Except String ℤ) (draws : ℕ → JobDraws) (c : Cache)
    (startAt endAt : ℤ) (jobs : List Job) (rep : Report)
    (h : mainRun db draws c startAt endAt jobs = .ok rep) :
    rep.TotalSuccessCount + rep.TotalFailureCount = rep.TotalQueries ∧
      rep.TotalQueries = jobs.length := by
  unfold mainRun at h
  simp only [bind, Except.bind] at h
  split at h
  · cases h
  · rename_i p hp
    obtain ⟨c', rs⟩ := p
    have hlen := run_length db draws jobs 0 c c' rs hp
    obtain ⟨h1, h2, h3⟩ := finalizeReport_counts _ _ h
    have hc := foldl_aggregate_counts rs { JobStartAt := startAt, JobEndAt := endAt }
    simp only at hc h1 h2 h3
    rw [h2, h3, h1, hc, hlen]
    simp


theorem runJob_absent (db : String → Except String ℤ) (c : Cache) (dr : JobDraws) (job : Job)
    (h : c job.TableName = none) :
    ∃ r : Result, runJob db c dr job = .ok (c, r) ∧ r.OK = false := by
  unfold runJob unloadCSVDataRandomFromCache
  rw [h]
  exact ⟨_, rfl, rfl⟩

theorem run_empty_cache (db : String → Except String ℤ) (draws : ℕ → JobDraws)
    (jobs : List Job) :
    ∀ k : ℕ, ∃ rs : List Result,
      run db draws k (fun _ => none) jobs = .ok (fun _ => none, rs) ∧ ∀ r ∈ rs, r.OK = false := by
  induction jobs with
  | nil => intro k; exact ⟨[], rfl, by simp⟩
  | cons job jobs ih =>
    intro k
    obtain ⟨r, hr, hok⟩ := runJob_absent db (fun _ => none) (draws k) job rfl
    obtain ⟨rs, hrs, hall⟩ := ih (k + 1)
    refine ⟨r :: rs, ?_, ?_⟩
    · simp only [run, bind, Except.bind, hr, hrs]
      rfl
    · intro x hx
      rcases List.mem_cons.mp hx with h | h
      · rw [h]; exact hok
      · exact hall x h

theorem foldl_aggregate_failures (rs : List Result) (hall : ∀ r ∈ rs, r.OK = false) :
    ∀ rep : Report, (rs.foldl aggregate rep).totalQueryDurations = rep.totalQueryDurations := by
  induction rs with
  | nil => intro rep; rfl
  | cons r rs ih =>
    intro rep
    rw [List.foldl_cons, ih (fun x hx => hall x (List.mem_cons_of_mem _ hx))]
    unfold aggregate
    rw [hall r (List.mem_cons_self _ _)]
    rfl

/-- C3: for a run over an empty value cache every job yields one failed result, the
aggregator records no latency sample, and finalizing the report panics, so no report with
`TotalSuccessCount + TotalFailureCount = TotalQueries` equal to the number of jobs exists. -/
theorem mainRun_empty_cache_panics (db : String → Except String ℤ) (draws : ℕ → JobDraws)
    (startAt endAt : ℤ) (jobs : List Job) :
    mainRun db draws (fun _ => none) startAt endAt jobs
      = .error (.panic "index out of range") := by
  obtain ⟨rs, hrs, hall⟩ := run_empty_cache db draws jobs 0
  unfold mainRun
  simp only [bind, Except.bind, hrs]
  exact finalizeReport_nil _ (foldl_aggregate_failures rs hall _)

/-! ## Value cache -/

theorem unloadCSVDataRandomFromCache_absent (c : Cache) (raw : ℕ) (t : String)
    (h : c t = none) :
    unloadCSVDataRandomFromCache c raw t
      = .error (.error ("CSV data for the table " ++ t ++ " is not found in cache")) := by
  unfold unloadCSVDataRandomFromCache
  rw [h]

theorem unloadCSVDataRandomFromCache_present (c : Cache) (raw : ℕ) (t : String)
    (rows : List Row) (h : c t = some rows) (hne : rows ≠ []) :
    ∃ (i : ℕ) (row : Row), unloadCSVDataRandomFromCache c raw t = .ok (i, row) ∧
      i = raw % rows.length ∧ rows.get? i = some row ∧ row ∈ rows := by
  have hpos : 0 < rows.length := List.length_pos.mpr hne
  have hlt : raw % rows.length < rows.length := Nat.mod_lt _ hpos
  refine ⟨raw % rows.length, rows.get ⟨_, hlt⟩, ?_, rfl, ?_, List.get_mem _ _ _⟩
  · unfold unloadCSVDataRandomFromCache intN
    rw [h]
    simp only [if_neg hpos.ne', List.get?_eq_get hlt]
  · exact List.get?_eq_get hlt

/-- C5: for a table that is present in the cache with zero rows, the lookup panics in
`r.IntN(0)` for every draw; it returns neither a row nor the "not found in cache" error. -/
theorem unloadCSVDataRandomFromCache_empty_table_panics (raw : ℕ) :
    unloadCSVDataRandomFromCache emptyTableCache raw "sbtest1"
      = .error (.panic "invalid argument to IntN") := by
  rfl

/-- C4: processing one job whose sentinel test succeeds overwrites the cached row: the row
`["1", "2", "c", "p"]` of the table `sbtest1` is `["-1", "2", "c", "p"]` afterwards. -/
theorem runJob_mutates_cache :
    sampleCache "sbtest1" = some [["1", "2", "c", "p"]] ∧
    ∃ (c' : Cache) (r : Result),
      runJob (fun _ => .ok 5) sampleCache sampleDraws sampleJob = .ok (c', r) ∧
      c' "sbtest1" = some [["-1", "2", "c", "p"]] := by
  refine ⟨by decide, _, _, rfl, ?_⟩
  decide

/-- C7: with one conjunct drawn and the permutation `[3, 2, 1, 0]`, whose first entry selects
the column `pad`, the clause is on the column `id`: the loop variable ranges over the
positions of the truncated permutation, not over its entries, and the same clause results
from the identity permutation. -/
theorem generateWhereClauseRandom_ignores_permutation :
    generateWhereClauseRandom 0 [3, 2, 1, 0] (fun _ => false) ["1", "2", "c", "p"]
        = .ok ("WHERE id = 1", ["1", "2", "c", "p"]) ∧
      generateWhereClauseRandom 0 [0, 1, 2, 3] (fun _ => false) ["1", "2", "c", "p"]
        = .ok ("WHERE id = 1", ["1", "2", "c", "p"]) := by
  constructor <;> rfl

/-! ## Field chooser -/

theorem columns_nodup : columns.Nodup := by decide

theorem mapM_index_columns (l : List ℕ) (h : ∀ i ∈ l, i < 4) :
    l.mapM (fun i : ℕ => index columns (i : ℤ)) = .ok (l.map (fun i => columns.getD i "")) := by
  induction l with
  | nil => rfl
  | cons a l ih =>
    have ha : a < columns.length := h a (List.mem_cons_self _ _)
    have hl := ih (fun i hi => h i (List.mem_cons_of_mem _ hi))
    rw [List.mapM_cons, index_natCast columns a ha, hl]
    simp [bind, Except.bind, pure, Except.pure, List.getElem?_eq_getElem ha]

theorem getD_columns_injOn (i j : ℕ) (hi : i < 4) (hj : j < 4)
    (h : columns.getD i "" = columns.getD j "") : i = j := by
  interval_cases i <;> interval_cases j <;> first | rfl | (exfalso; revert h; decide)

/-- C9: for every sequence of random draws (the wildcard test, the raw draw of the field
count and a permutation of the four column positions) `getTableFieldsRandom` returns either
exactly `["*"]` or a list of length in `[1, 4]`, all of whose elements are schema column
names, without duplicates, in the order of the first entries of the drawn permutation. -/
theorem getTableFieldsRandom_spec (wild : Bool) (numDraw : ℕ) (perm : List ℕ)
    (hp : perm.Perm (List.range 4)) :
    ∃ fields : List String, getTableFieldsRandom wild numDraw perm = .ok fields ∧
      (fields = ["*"] ∨
        (1 ≤ fields.length ∧ fields.length ≤ 4 ∧ (∀ f ∈ fields, f ∈ columns) ∧ fields.Nodup ∧
          fields = (perm.take (numDraw % 4 + 1)).map (fun i => columns.getD i ""))) := by
  have hlen : perm.length = 4 := by rw [hp.length_eq]; rfl
  have hmem : ∀ i ∈ perm, i < 4 := fun i hi => List.mem_range.mp (hp.mem_iff.mp hi)
  have hnd : perm.Nodup := hp.nodup_iff.mpr (List.nodup_range 4)
  have hk : numDraw % 4 + 1 ≤ 4 := by omega
  have htake : ∀ i ∈ perm.take (numDraw % 4 + 1), i < 4 :=
    fun i hi => hmem i (List.mem_of_mem_take hi)
  cases wild with
  | true => exact ⟨["*"], rfl, Or.inl rfl⟩
  | false =>
    refine ⟨(perm.take (numDraw % 4 + 1)).map (fun i => columns.getD i ""), ?_, Or.inr ?_⟩
    · unfold getTableFieldsRandom intN
      have hc : columns.length = 4 := rfl
      simp only [hc, bind, Except.bind, pure, Except.pure]
      simp only [Bool.false_eq_true, if_false, show (4 : ℕ) ≠ 0 by norm_num, hlen,
        show ¬ (4 < numDraw % 4 + 1) by omega]
      exact mapM_index_columns _ htake
    · refine ⟨?_, ?_, ?_, ?_, rfl⟩
      · rw [List.length_map, List.length_take, hlen]; omega
      · rw [List.length_map, List.length_take, hlen]; omega
      · intro f hf
        obtain ⟨i, hi, rfl⟩ := List.mem_map.mp hf
        have hi4 : i < columns.length := htake i hi
        rw [List.getD_eq_getElem _ _ hi4]
        exact List.getElem_mem _
      · apply List.Nodup.map_on _ (hnd.sublist (List.take_sublist _ _))
        intro i hi j hj hij
        exact getD_columns_injOn i j (htake i hi) (htake j hj) hij

theorem getTableFieldsRandom_spec_witness :
    ∃ fields : List String, getTableFieldsRandom false 6 [3, 2, 1, 0] = .ok fields ∧
      (fields = ["*"] ∨
        (1 ≤ fields.length ∧ fields.length ≤ 4 ∧ (∀ f ∈ fields, f ∈ columns) ∧ fields.Nodup ∧
          fields = ([3, 2, 1, 0].take (6 % 4 + 1)).map (fun i => columns.getD i ""))) :=
  getTableFieldsRandom_spec false 6 [3, 2, 1, 0] (by decide)

/-! ## WHERE clause builder -/

theorem generateWhereClauseRandom_unfold (nDraw : ℕ) (perm : List ℕ) (sentinel : ℕ → Bool)
    (data : Row) (hd : data ≠ []) (hp : perm.length = data.length) :
    generateWhereClauseRandom nDraw perm sentinel data =
      (List.range (nDraw % data.length + 1)).foldlM (whereStep sentinel) (data, []) >>=
        fun st => pure ("WHERE " ++ " AND ".intercalate st.2, st.1) := by
  have hpos : 0 < data.length := List.length_pos.mpr hd
  have hlt : nDraw % data.length < data.length := Nat.mod_lt _ hpos
  unfold generateWhereClauseRandom intN
  simp only [if_neg hpos.ne', bind, Except.bind, pure, Except.pure]
  rw [if_neg (by omega), List.length_take, hp, min_eq_left (by omega)]


/-- C8: for every row of width 4 and every random draws (the raw draw of the conjunct count,
a permutation of the four positions and the sentinel tests) `generateWhereClauseRandom`
returns `"WHERE "` followed by `n` conjuncts joined by `" AND "`, with `1 <= n <= 4`; the
conjunct at position `i` is `<column i> = <value>`, the value unquoted for the columns `id`
and `k` and in single quotes for `c` and `pad`, and the value is the row's value at that
column or the sentinel `-1`. -/
theorem generateWhereClauseRandom_shape (data : Row) (hw : data.length = 4) (nDraw : ℕ)
    (perm : List ℕ) (hp : perm.Perm (List.range 4)) (sentinel : ℕ → Bool) :
    ∃ (clause : List String) (data' : Row),
      generateWhereClauseRandom nDraw perm sentinel data
        = .ok ("WHERE " ++ " AND ".intercalate clause, data') ∧
      clause.length = nDraw % 4 + 1 ∧ 1 ≤ clause.length ∧ clause.length ≤ 4 ∧
      ∀ i, i < clause.length → ∃ v : String, (v = data.getD i "" ∨ v = "-1") ∧
        clause.get? i
          = some (columns.getD i "" ++ " = " ++ (if i < 2 then v else "'" ++ v ++ "'")) := by
  have hlen : perm.length = data.length := by rw [hp.length_eq, hw]; rfl
  have hd : data ≠ [] := by intro h; rw [h] at hw; simp at hw
  rw [generateWhereClauseRandom_unfold nDraw perm sentinel data hd hlen, hw]
  obtain ⟨a, b, c, d, rfl⟩ : ∃ a b c d, data = [a, b, c, d] := by
    match data, hw with
    | [a, b, c, d], _ => exact ⟨a, b, c, d, rfl⟩
  have hk : nDraw % 4 < 4 := Nat.mod_lt _ (by norm_num)
  generalize nDraw % 4 = k at hk ⊢
  interval_cases k
  all_goals
    cases h0 : sentinel 0 <;> cases h1 : sentinel 1 <;> cases h2 : sentinel 2 <;>
      cases h3 : sentinel 3 <;>
    simp only [List.range_succ, List.range_zero, List.nil_append, List.cons_append,
      List.foldlM_cons, List.foldlM_nil, whereStep, h0, h1, h2, h3, bind, Except.bind, pure,
      Except.pure, columns, List.length_cons, List.length_nil, List.set_cons_zero,
      List.set_cons_succ, List.get?_cons_zero, List.get?_cons_succ, List.getD_cons_zero,
      List.getD_cons_succ, Bool.false_eq_true, if_false, if_true, Nat.lt_add_one,
      Nat.zero_lt_succ, Nat.succ_lt_succ_iff, List.get?, zero_add, Nat.reduceAdd,
      Nat.reduceLT, Nat.reduceEqDiff, or_true, true_or, or_false, false_or, OfNat.ofNat_ne_zero,
      OfNat.ofNat_ne_one, one_ne_zero, zero_ne_one, Nat.succ_ne_zero, reduceCtorEq] <;>
    refine ⟨_, _, rfl, rfl, by simp, by simp, ?_⟩ <;>
    intro i hi <;>
    simp only [List.length_cons, List.length_nil, zero_add, Nat.reduceAdd] at hi <;>
    interval_cases i <;>
    first
      | exact ⟨_, Or.inl rfl, rfl⟩
      | exact ⟨_, Or.inr rfl, rfl⟩


theorem generateWhereClauseRandom_shape_witness :
    ∃ (clause : List String) (data' : Row),
      generateWhereClauseRandom 7 [3, 2, 1, 0] (fun i => i == 2) ["1", "2", "c", "p"]
        = .ok ("WHERE " ++ " AND ".intercalate clause, data') ∧
      clause.length = 7 % 4 + 1 ∧ 1 ≤ clause.length ∧ clause.length ≤ 4 ∧
      ∀ i, i < clause.length → ∃ v : String,
        (v = (["1", "2", "c", "p"] : Row).getD i "" ∨ v = "-1") ∧
        clause.get? i
          = some (columns.getD i "" ++ " = " ++ (if i < 2 then v else "'" ++ v ++ "'")) :=
  generateWhereClauseRandom_shape ["1", "2", "c", "p"] rfl 7 [3, 2, 1, 0] (by decide)
    (fun i => i == 2)

/-! ## Reservoir sampling -/

/-- The candidate held after a stream of rows read without error. -/
theorem loadLoop_ok_rows {csvFile : String} (draw : ℕ → ℕ) (rows : List Row) :
    ∀ (c : ℕ) (data : Row), 0 < c →
      ∃ x : Row, loadLoop draw csvFile c data (rows.map .ok) = .ok x ∧ (x = data ∨ x ∈ rows) := by
  induction rows with
  | nil => intro c data _; exact ⟨data, rfl, Or.inl rfl⟩
  | cons r rows ih =>
    intro c data hc
    obtain ⟨x, hx, hmem⟩ := ih (c + 1) (if draw c % c = 0 then r else data) (Nat.succ_pos _)
    refine ⟨x, ?_, ?_⟩
    · simp only [List.map_cons, loadLoop, intN, if_neg hc.ne']
      exact hx
    · rcases hmem with h | h
      · by_cases hd : draw c % c = 0
        · rw [if_pos hd] at h; right; rw [h]; exact List.mem_cons_self _ _
        · rw [if_neg hd] at h; left; exact h
      · right; exact List.mem_cons_of_mem _ h

/-- Appending one row to the stream: the new row is held exactly when its draw is zero. -/
theorem loadLoop_snoc {csvFile : String} (draw : ℕ → ℕ) (rows : List Row) (r : Row) :
    ∀ (c : ℕ) (data : Row), 0 < c →
      loadLoop draw csvFile c data ((rows ++ [r]).map .ok) =
        if draw (c + rows.length) % (c + rows.length) = 0 then .ok r
        else loadLoop draw csvFile c data (rows.map .ok) := by
  induction rows with
  | nil =>
    intro c data hc
    simp only [List.nil_append, List.map_cons, List.map_nil, loadLoop, intN, if_neg hc.ne',
      List.length_nil, add_zero]
    split_ifs <;> rfl
  | cons x rows ih =>
    intro c data hc
    simp only [List.cons_append, List.map_cons, loadLoop, intN, if_neg hc.ne',
      List.length_cons, List.append_eq]
    rw [ih (c + 1) _ (Nat.succ_pos _)]
    have : c + 1 + rows.length = c + (rows.length + 1) := by omega
    rw [this]

/-- The loop reads only the draws of the rows it processes. -/
theorem loadLoop_congr {csvFile : String} (draw draw' : ℕ → ℕ) (rows : List Row) :
    ∀ (c : ℕ) (data : Row), (∀ i, c ≤ i → i < c + rows.length → draw i = draw' i) →
      loadLoop draw csvFile c data (rows.map .ok) = loadLoop draw' csvFile c data (rows.map .ok) := by
  induction rows with
  | nil => intro c data _; rfl
  | cons x rows ih =>
    intro c data h
    simp only [List.map_cons, loadLoop]
    rw [h c le_rfl (by simp)]
    cases intN (draw' c) c with
    | error f => rfl
    | ok d =>
      simp only
      apply ih
      intro i hi hi'
      exact h i (by omega) (by simp only [List.length_cons]; omega)

theorem length_of_mem_drawSeqs (k : ℕ) : ∀ ds ∈ drawSeqs k, ds.length = k := by
  induction k with
  | zero => intro ds h; simp [drawSeqs] at h; simp [h]
  | succ k ih =>
    intro ds h
    simp only [drawSeqs, List.mem_flatMap, List.mem_map, List.mem_range] at h
    obtain ⟨ds', hds', d, _, rfl⟩ := h
    simp [ih ds' hds']

theorem length_drawSeqs (k : ℕ) : (drawSeqs k).length = k.factorial := by
  induction k with
  | zero => rfl
  | succ k ih =>
    have : ∀ l : List (List ℕ),
        (l.flatMap (fun ds => (List.range (k + 1)).map (fun d => ds ++ [d]))).length
          = l.length * (k + 1) := by
      intro l
      induction l with
      | nil => simp
      | cons a l ihl =>
        simp only [List.flatMap_cons, List.length_append, List.length_map, List.length_range,
          ihl, List.length_cons]
        ring
    simp only [drawSeqs, this, ih, Nat.factorial_succ]
    ring


theorem loadLoop_snoc_draw {csvFile : String} (rows : List Row) (r : Row) (ds : List ℕ) (d : ℕ)
    (hds : ds.length = rows.length) (hd : d < rows.length + 1) :
    loadLoop (drawOf (ds ++ [d])) csvFile 1 [] ((rows ++ [r]).map .ok) =
      if d = 0 then .ok r else loadLoop (drawOf ds) csvFile 1 [] (rows.map .ok) := by
  rw [loadLoop_snoc _ rows r 1 [] Nat.one_pos]
  have h1 : drawOf (ds ++ [d]) (1 + rows.length) = d := by
    unfold drawOf
    rw [Nat.add_sub_cancel_left, ← hds]
    simp
  have h2 : loadLoop (drawOf (ds ++ [d])) csvFile 1 [] (rows.map .ok)
      = loadLoop (drawOf ds) csvFile 1 [] (rows.map .ok) := by
    apply loadLoop_congr
    intro i hi hi'
    unfold drawOf
    have : i - 1 < ds.length := by omega
    simp [List.getD_eq_getElem?_getD, List.getElem?_append_left this]
  rw [h1, h2, show 1 + rows.length = rows.length + 1 by omega, Nat.mod_eq_of_lt hd]

theorem countP_range_split (p : ℕ → Bool) (A B : Bool) (h0 : p 0 = A)
    (hs : ∀ d, p (d + 1) = B) (k : ℕ) :
    (List.range (k + 1)).countP p = (if A then 1 else 0) + k * (if B then 1 else 0) := by
  rw [List.range_succ_eq_map, List.countP_cons, List.countP_map, h0]
  have hc : (List.range k).countP (p ∘ Nat.succ) = k * (if B then 1 else 0) := by
    cases B with
    | true =>
      have : (List.range k).countP (p ∘ Nat.succ) = (List.range k).length := by
        rw [List.countP_eq_length]
        intro d _
        exact hs d
      simp [this]
    | false =>
      have : (List.range k).countP (p ∘ Nat.succ) = 0 := by
        rw [List.countP_eq_zero]
        intro d _
        simp [hs d]
      simp [this]
  rw [hc]
  cases A <;> simp
  ring

theorem sum_map_indicator {α : Type} (q : α → Bool) (A k : ℕ) (l : List α) :
    (l.map (fun a => A + k * (if q a then 1 else 0))).sum = A * l.length + k * l.countP q := by
  induction l with
  | nil => simp
  | cons a l ih =>
    rw [List.map_cons, List.sum_cons, ih, List.length_cons, List.countP_cons]
    cases q a <;> simp <;> ring

/-- The number of draw sequences after which the loop holds `x`, one row longer. -/
theorem count_snoc {csvFile : String} (rows : List Row) (r x : Row) :
    (drawSeqs (rows ++ [r]).length).countP (fun ds =>
        decide ((loadCSVDataRandom (drawOf ds) (.ok csvFile) (.ok ((rows ++ [r]).map .ok))).toOption = some x))
      = (if r = x then 1 else 0) * rows.length.factorial
        + rows.length * (drawSeqs rows.length).countP (fun ds =>
            decide ((loadCSVDataRandom (drawOf ds) (.ok csvFile) (.ok (rows.map .ok))).toOption = some x)) := by
  rw [List.length_append, List.length_singleton]
  simp only [drawSeqs, loadCSVDataRandom]
  rw [List.countP_flatMap, ← length_drawSeqs, ← sum_map_indicator]
  congr 1
  apply List.map_congr_left
  intro ds hds
  have hlen := length_of_mem_drawSeqs _ ds hds
  rw [Function.comp_apply, List.countP_map]
  have hsplit := countP_range_split (fun d => decide ((if d = 0 then
        (Except.ok r : Except Fault Row)
      else loadLoop (drawOf ds) csvFile 1 [] (rows.map .ok)).toOption = some x))
    (decide (r = x)) (decide ((loadLoop (drawOf ds) csvFile 1 [] (rows.map .ok)).toOption = some x))
    (by simp [Except.toOption]) (by intro d; simp) rows.length
  simp only [decide_eq_true_eq] at hsplit
  simp only [decide_eq_true_eq]
  rw [← hsplit]
  apply List.countP_congr
  intro d hd
  simp only [Function.comp, List.mem_range] at hd ⊢
  have hstep : loadLoop (drawOf (ds ++ [d])) csvFile 1 [] ((rows ++ [r]).map .ok) = _ :=
    loadLoop_snoc_draw rows r ds d hlen hd
  simp only [decide_eq_true_eq, hstep]


theorem loadLoop_held_mem {csvFile : String} (draw : ℕ → ℕ) (rows : List Row) (hne : rows ≠ []) :
    ∃ x : Row, loadLoop draw csvFile 1 [] (rows.map .ok) = .ok x ∧ x ∈ rows := by
  cases rows with
  | nil => exact absurd rfl hne
  | cons a rest =>
    obtain ⟨x, hx, hmem⟩ := loadLoop_ok_rows draw rest 2 a (by norm_num)
    refine ⟨x, ?_, ?_⟩
    · simp only [List.map_cons, loadLoop, intN, Nat.mod_one, if_true, one_ne_zero, if_false]
      exact hx
    · rcases hmem with h | h
      · rw [h]; exact List.mem_cons_self _ _
      · exact List.mem_cons_of_mem _ h

theorem count_not_mem {csvFile : String} (rows : List Row) (hne : rows ≠ []) (x : Row) (hx : x ∉ rows) :
    (drawSeqs rows.length).countP (fun ds =>
        decide ((loadCSVDataRandom (drawOf ds) (.ok csvFile) (.ok (rows.map .ok))).toOption = some x)) = 0 := by
  rw [List.countP_eq_zero]
  intro ds _
  obtain ⟨y, hy, hmem⟩ :
      ∃ y : Row, loadLoop (drawOf ds) csvFile 1 [] (rows.map .ok) = .ok y ∧ y ∈ rows :=
    loadLoop_held_mem (drawOf ds) rows hne
  simp only [loadCSVDataRandom, hy, Except.toOption, decide_eq_true_eq, Option.some.injEq]
  intro h
  exact hx (h ▸ hmem)

theorem count_held {csvFile : String} (rows : List Row) :
    rows.Nodup → ∀ x ∈ rows,
      (drawSeqs rows.length).countP (fun ds =>
          decide ((loadCSVDataRandom (drawOf ds) (.ok csvFile) (.ok (rows.map .ok))).toOption = some x))
        = (rows.length - 1).factorial := by
  induction rows using List.reverseRecOn with
  | nil => intro _ x hx; simp at hx
  | append_singleton rows r ih =>
    intro hnd x hx
    have hnd' : rows.Nodup := (List.nodup_append.mp hnd).1
    have hr : r ∉ rows := by
      intro h
      exact (List.nodup_append.mp hnd).2.2 h (List.mem_singleton_self r) 
    rw [count_snoc, List.length_append, List.length_singleton, Nat.add_sub_cancel]
    rcases List.mem_append.mp hx with h | h
    · have hxr : r ≠ x := fun e => hr (e ▸ h)
      have hpos : 0 < rows.length := List.length_pos_of_mem h
      rw [if_neg hxr, ih hnd' x h, Nat.zero_mul, Nat.zero_add, Nat.mul_factorial_pred hpos]
    · have hxr : r = x := (List.mem_singleton.mp h).symm
      rw [if_pos hxr, Nat.one_mul]
      rcases List.eq_nil_or_concat rows with h0 | ⟨l, b, hl⟩
      · rw [h0]; simp
      · have hne : rows ≠ [] := by rw [hl]; simp
        rw [count_not_mem rows hne x (hxr ▸ hr), Nat.mul_zero, Nat.add_zero]

/-- Counting by value: for a stream of pairwise different rows read without error, exactly
`(k - 1)!` of the `k!` draw sequences return the row found at any given position. -/
theorem loadCSVDataRandom_count_of_nodup {csvFile : String} (rows : List Row) (hnd : rows.Nodup) (j : ℕ)
    (hj : j < rows.length) :
    (drawSeqs rows.length).length = rows.length.factorial ∧
    (drawSeqs rows.length).countP (fun ds =>
        decide ((loadCSVDataRandom (drawOf ds) (.ok csvFile) (.ok (rows.map .ok))).toOption
          = some (rows.get ⟨j, hj⟩))) = (rows.length - 1).factorial ∧
    (((drawSeqs rows.length).countP (fun ds =>
        decide ((loadCSVDataRandom (drawOf ds) (.ok csvFile) (.ok (rows.map .ok))).toOption
          = some (rows.get ⟨j, hj⟩))) : ℚ) / ((drawSeqs rows.length).length : ℚ))
      = 1 / (rows.length : ℚ) := by
  have hcount : (drawSeqs rows.length).countP (fun ds =>
      decide ((loadCSVDataRandom (drawOf ds) (.ok csvFile) (.ok (rows.map .ok))).toOption
        = some (rows.get ⟨j, hj⟩))) = (rows.length - 1).factorial :=
    count_held rows hnd (rows.get ⟨j, hj⟩) (List.get_mem _ _ _)
  have hpos : 0 < rows.length := by omega
  refine ⟨length_drawSeqs _, hcount, ?_⟩
  rw [hcount, length_drawSeqs, ← Nat.mul_factorial_pred hpos]
  have h1 : ((rows.length - 1).factorial : ℚ) ≠ 0 := by
    exact_mod_cast (Nat.factorial_pos _).ne'
  have h2 : (rows.length : ℚ) ≠ 0 := by exact_mod_cast hpos.ne'
  push_cast
  field_simp
  ring

/-- The list `drawSeqs k` holds exactly the sequences `(d_1, ..., d_k)` with `d_i < i`. -/
theorem mem_drawSeqs (k : ℕ) : ∀ ds : List ℕ,
    ds ∈ drawSeqs k ↔ ds.length = k ∧ ∀ i, i < k → ds.getD i 0 ≤ i := by
  induction k with
  | zero =>
    intro ds
    simp [drawSeqs, List.length_eq_zero]
  | succ k ih =>
    intro ds
    simp only [drawSeqs, List.mem_flatMap, List.mem_map, List.mem_range]
    constructor
    · rintro ⟨ds', hds', d, hd, rfl⟩
      obtain ⟨hlen, hle⟩ := (ih ds').mp hds'
      refine ⟨by simp [hlen], ?_⟩
      intro i hi
      rcases Nat.lt_succ_iff_lt_or_eq.mp hi with h | h
      · have : i < ds'.length := by omega
        rw [List.getD_eq_getElem?_getD, List.getElem?_append_left this,
          ← List.getD_eq_getElem?_getD]
        exact hle i h
      · subst h
        rw [List.getD_eq_getElem?_getD, ← hlen]
        simp
        omega
    · rintro ⟨hlen, hle⟩
      have hne : ds ≠ [] := by intro h; rw [h] at hlen; simp at hlen
      have hsplit := List.dropLast_append_getLast hne
      have hdl : ds.dropLast.length = k := by rw [List.length_dropLast, hlen]; rfl
      have hlast : ds.getLast hne = ds.getD k 0 := by
        have hk : k < ds.length := by omega
        rw [List.getD_eq_getElem _ _ hk, List.getLast_eq_getElem]
        congr 1
        omega
      refine ⟨ds.dropLast, (ih _).mpr ⟨hdl, ?_⟩, ds.getLast hne, ?_, hsplit⟩
      · intro i hi
        have h1 := hle i (by omega)
        have : i < ds.dropLast.length := by omega
        rw [← hsplit, List.getD_eq_getElem?_getD, List.getElem?_append_left this,
          ← List.getD_eq_getElem?_getD] at h1
        exact h1
      · rw [hlast]
        have := hle k (by omega)
        omega

theorem nodup_drawSeqs (k : ℕ) : (drawSeqs k).Nodup := by
  induction k with
  | zero => simp [drawSeqs]
  | succ k ih =>
    simp only [drawSeqs]
    rw [List.nodup_flatMap]
    constructor
    · intro ds _
      apply List.Nodup.map _ (List.nodup_range _)
      intro a b h
      simpa using h
    · apply ih.pairwise_of_forall_ne
      intro a _ b _ hab
      simp only [Function.onFun, List.disjoint_left, List.mem_map, List.mem_range]
      rintro x ⟨d, _, rfl⟩ ⟨d', _, h⟩
      have := List.append_inj_left' h rfl
      exact hab this.symm

/-! ## What a job leaves untouched -/

/-- A job changes no table of the cache other than its own. -/
theorem runJob_other_tables (db : String → Except String ℤ) (c c' : Cache) (dr : JobDraws)
    (job : Job) (r : Result) (h : runJob db c dr job = .ok (c', r)) (t : String)
    (ht : t ≠ job.TableName) : c' t = c t := by
  unfold runJob at h
  split at h
  · cases h
  · simp only [Except.ok.injEq, Prod.mk.injEq] at h
    rw [← h.1]
  · simp only [bind, Except.bind, pure, Except.pure] at h
    split at h
    · cases h
    · split at h
      · cases h
      · split at h <;>
        · simp only [Except.ok.injEq, Prod.mk.injEq] at h
          rw [← h.1]
          simp [Cache.setRow, ht]

/-- The clause and the row written by `generateWhereClauseRandom` do not depend on the
entries of the drawn permutation, only on its length. -/
theorem generateWhereClauseRandom_perm_irrelevant (nDraw : ℕ) (perm perm' : List ℕ)
    (sentinel : ℕ → Bool) (data : Row) (h : perm.length = perm'.length) :
    generateWhereClauseRandom nDraw perm sentinel data
      = generateWhereClauseRandom nDraw perm' sentinel data := by
  unfold generateWhereClauseRandom
  simp only [List.length_take, h]

/-! ## Reservoir sampling by position -/

theorem heldPosition_lt (draw : ℕ → ℕ) : ∀ k : ℕ, 0 < k → heldPosition draw k < k := by
  intro k
  induction k with
  | zero => intro h; exact absurd h (lt_irrefl 0)
  | succ k ih =>
    intro _
    unfold heldPosition
    split_ifs with h
    · exact Nat.lt_succ_self k
    · rcases Nat.eq_zero_or_pos k with h0 | h0
      · subst h0; exact absurd (Nat.mod_one _) h
      · exact Nat.lt_succ_of_lt (ih h0)

theorem heldPosition_congr (draw draw' : ℕ → ℕ) :
    ∀ k : ℕ, (∀ i, 1 ≤ i → i ≤ k → draw i = draw' i) →
      heldPosition draw k = heldPosition draw' k := by
  intro k
  induction k with
  | zero => intro _; rfl
  | succ k ih =>
    intro h
    unfold heldPosition
    rw [h (k + 1) (by omega) le_rfl, ih (fun i h1 h2 => h i h1 (by omega))]

/-- The loop returns the row at the held position, whatever the rows are. -/
theorem loadLoop_eq_get {csvFile : String} (draw : ℕ → ℕ) (rows : List Row) :
    rows ≠ [] →
      loadLoop draw csvFile 1 [] (rows.map .ok)
        = .ok (rows.getD (heldPosition draw rows.length) []) := by
  induction rows using List.reverseRecOn with
  | nil => intro h; exact absurd rfl h
  | append_singleton rows r ih =>
    intro _
    rw [loadLoop_snoc draw rows r 1 [] Nat.one_pos, List.length_append, List.length_singleton,
      show 1 + rows.length = rows.length + 1 by omega]
    unfold heldPosition
    split_ifs with h
    · simp [List.getD_eq_getElem?_getD]
    · rcases List.eq_nil_or_concat rows with h0 | ⟨l, b, hl⟩
      · subst h0; exact absurd (Nat.mod_one _) h
      · have hne : rows ≠ [] := by rw [hl]; simp
        have hlt := heldPosition_lt draw rows.length (List.length_pos.mpr hne)
        rw [ih hne, List.getD_eq_getElem?_getD, List.getD_eq_getElem?_getD,
          List.getElem?_append_left hlt]

theorem heldPosition_snoc (ds : List ℕ) (d k : ℕ) (hds : ds.length = k) (hd : d < k + 1) :
    heldPosition (drawOf (ds ++ [d])) (k + 1)
      = if d = 0 then k else heldPosition (drawOf ds) k := by
  have h1 : drawOf (ds ++ [d]) (k + 1) = d := by
    unfold drawOf
    rw [Nat.add_sub_cancel, ← hds]
    simp
  have h2 : heldPosition (drawOf (ds ++ [d])) k = heldPosition (drawOf ds) k := by
    apply heldPosition_congr
    intro i hi hi'
    unfold drawOf
    have : i - 1 < ds.length := by omega
    simp [List.getD_eq_getElem?_getD, List.getElem?_append_left this]
  conv_lhs => unfold heldPosition
  rw [h1, h2, Nat.mod_eq_of_lt hd]

/-- The number of draw sequences that hold position `j`, one row longer. -/
theorem count_position_succ (k j : ℕ) :
    (drawSeqs (k + 1)).countP (fun ds => decide (heldPosition (drawOf ds) (k + 1) = j))
      = (if k = j then 1 else 0) * k.factorial
        + k * (drawSeqs k).countP (fun ds => decide (heldPosition (drawOf ds) k = j)) := by
  simp only [drawSeqs]
  rw [List.countP_flatMap, ← length_drawSeqs, ← sum_map_indicator]
  congr 1
  apply List.map_congr_left
  intro ds hds
  have hlen := length_of_mem_drawSeqs _ ds hds
  rw [Function.comp_apply, List.countP_map]
  have hsplit := countP_range_split
    (fun d => decide ((if d = 0 then k else heldPosition (drawOf ds) k) = j))
    (decide (k = j)) (decide (heldPosition (drawOf ds) k = j))
    (by simp) (by intro d; simp) k
  simp only [decide_eq_true_eq] at hsplit
  simp only [decide_eq_true_eq]
  rw [← hsplit]
  apply List.countP_congr
  intro d hd
  simp only [Function.comp, List.mem_range] at hd ⊢
  simp only [decide_eq_true_eq, heldPosition_snoc ds d k hlen hd]

theorem count_position (k : ℕ) : ∀ j, j < k →
    (drawSeqs k).countP (fun ds => decide (heldPosition (drawOf ds) k = j))
      = (k - 1).factorial := by
  induction k with
  | zero => intro j hj; exact absurd hj (Nat.not_lt_zero j)
  | succ k ih =>
    intro j hj
    rw [count_position_succ, Nat.add_sub_cancel]
    rcases Nat.lt_succ_iff_lt_or_eq.mp hj with h | h
    · rw [if_neg (by omega), ih j h, Nat.zero_mul, Nat.zero_add,
        Nat.mul_factorial_pred (by omega)]
    · subst h
      rw [if_pos rfl, Nat.one_mul]
      have hz : (drawSeqs j).countP (fun ds => decide (heldPosition (drawOf ds) j = j)) = 0
          ∨ j = 0 := by
        rcases Nat.eq_zero_or_pos j with h0 | h0
        · right; exact h0
        · left
          rw [List.countP_eq_zero]
          intro ds _
          have := heldPosition_lt (drawOf ds) j h0
          simp only [decide_eq_true_eq]
          omega
      rcases hz with hz | hz
      · rw [hz, Nat.mul_zero, Nat.add_zero]
      · subst hz; simp

/-- C6: reservoir sampling in `loadCSVDataRandom` is uniform.  For `k >= 1` the draw
sequences `(d_1, ..., d_k)` with `d_i` in `{0, ..., i - 1}` are listed without repetition by
`drawSeqs k` and there are `k!` of them.  Every draw sequence determines a position `pos ds`
such that, for every stream of `k` rows read without error (equal rows allowed), the loop
returns the row at that position; and for every position `j` exactly `(k - 1)!` of the draw
sequences leave the row at position `j` as the returned candidate, so each row is returned
with probability `1 / k`. -/
theorem loadCSVDataRandom_uniform (k : ℕ) (hk : 1 ≤ k) :
    (drawSeqs k).Nodup ∧
    (∀ ds : List ℕ, ds ∈ drawSeqs k ↔ ds.length = k ∧ ∀ i, i < k → ds.getD i 0 ≤ i) ∧
    (drawSeqs k).length = k.factorial ∧
    ∃ pos : List ℕ → ℕ,
      (∀ (csvFile : String) (rows : List Row) (ds : List ℕ), rows.length = k →
        ∃ h : pos ds < rows.length,
          loadCSVDataRandom (drawOf ds) (.ok csvFile) (.ok (rows.map .ok))
            = .ok (rows.get ⟨pos ds, h⟩)) ∧
      ∀ j, j < k →
        (drawSeqs k).countP (fun ds => decide (pos ds = j)) = (k - 1).factorial ∧
        (((drawSeqs k).countP (fun ds => decide (pos ds = j)) : ℚ)
          / ((drawSeqs k).length : ℚ)) = 1 / (k : ℚ) := by
  refine ⟨nodup_drawSeqs k, mem_drawSeqs k, length_drawSeqs k,
    fun ds => heldPosition (drawOf ds) k, ?_, ?_⟩
  · intro csvFile rows ds hlen
    have hne : rows ≠ [] := by
      intro h; rw [h] at hlen; simp at hlen; omega
    have hlt : heldPosition (drawOf ds) k < rows.length := by
      rw [hlen]; exact heldPosition_lt _ k hk
    refine ⟨hlt, ?_⟩
    have hget : loadLoop (drawOf ds) csvFile 1 [] (rows.map .ok)
        = .ok (rows.getD (heldPosition (drawOf ds) rows.length) []) :=
      loadLoop_eq_get (drawOf ds) rows hne
    rw [hlen, List.getD_eq_getElem _ _ hlt] at hget
    exact hget
  · intro j hj
    have hcount := count_position k j hj
    refine ⟨hcount, ?_⟩
    rw [hcount, length_drawSeqs, ← Nat.mul_factorial_pred (show 0 < k by omega)]
    have h1 : ((k - 1).factorial : ℚ) ≠ 0 := by exact_mod_cast (Nat.factorial_pos _).ne'
    have h2 : (k : ℚ) ≠ 0 := by exact_mod_cast (show k ≠ 0 by omega)
    push_cast
    field_simp
    ring

theorem loadCSVDataRandom_uniform_witness :
    (drawSeqs 3).Nodup ∧
    (∀ ds : List ℕ, ds ∈ drawSeqs 3 ↔ ds.length = 3 ∧ ∀ i, i < 3 → ds.getD i 0 ≤ i) ∧
    (drawSeqs 3).length = Nat.factorial 3 ∧
    ∃ pos : List ℕ → ℕ,
      (∀ (csvFile : String) (rows : List Row) (ds : List ℕ), rows.length = 3 →
        ∃ h : pos ds < rows.length,
          loadCSVDataRandom (drawOf ds) (.ok csvFile) (.ok (rows.map .ok))
            = .ok (rows.get ⟨pos ds, h⟩)) ∧
      ∀ j, j < 3 →
        (drawSeqs 3).countP (fun ds => decide (pos ds = j)) = Nat.factorial (3 - 1) ∧
        (((drawSeqs 3).countP (fun ds => decide (pos ds = j)) : ℚ)
          / ((drawSeqs 3).length : ℚ)) = 1 / ((3 : ℕ) : ℚ) :=
  loadCSVDataRandom_uniform 3 (by norm_num)

end RandomSysbenchSelect
